import Mathlib

/-
Verification of the arbor course-graph pipeline against its specification.

The Python sources embedded here are src/scripts/fetch_mit_ocw.py (identifier
recognition, relation mining, record store, graph assembly) and
src/scripts/stats.py (graph analytics).  Pure text-processing and
data-shaping logic is translated directly; the HTTP/HTML layer is excluded
by the spec, so functions that consume mined text receive it as parameters.
-/

set_option maxHeartbeats 1000000

namespace Arbor

/-! ## Identifier Recognizer

`fetch_mit_ocw.py` line 59 compiles the pattern `(\d{2}\.\d{2,3}[A-Z]?)`
with `re.IGNORECASE`.  `matchIdAt` matches that pattern anchored at the head
of a character list, with the greedy semantics of the Python engine:
`\d{2,3}` prefers three digits, `[A-Z]?` (case-insensitive) prefers one
letter.  `searchId` is `re.search` (leftmost match), `findAllIds` is
`re.finditer` (leftmost, non-overlapping). -/

/-- Greedy match of the pattern suffix `\d{2,3}[A-Z]?` at the head of a list,
returning the matched characters.  Used after the two digits and the dot. -/
def matchTail (cs : List Char) : Option (List Char) :=
  match cs with
  | a :: b :: rest =>
    if a.isDigit && b.isDigit then
      match rest with
      | c :: rest2 =>
        if c.isDigit then
          match rest2 with
          | l :: _ => if l.isAlpha then some [a, b, c, l] else some [a, b, c]
          | [] => some [a, b, c]
        else if c.isAlpha then some [a, b, c]
        else some [a, b]
      | [] => some [a, b]
    else none
  | _ => none

/-- Match of `\d{2}\.\d{2,3}[A-Z]?` anchored at the head of the list,
returning the matched characters (`re.IGNORECASE` makes `[A-Z]` accept both
cases, which `Char.isAlpha` captures for ASCII input). -/
def matchIdAt (cs : List Char) : Option (List Char) :=
  match cs with
  | d1 :: d2 :: c :: rest =>
    if d1.isDigit && d2.isDigit && (c == '.') then
      match matchTail rest with
      | some t => some (d1 :: d2 :: c :: t)
      | none => none
    else none
  | _ => none

/-- Leftmost match: `self.course_pattern.search(text)` on the character list. -/
def searchId : List Char → Option (List Char)
  | [] => none
  | c :: cs =>
    match matchIdAt (c :: cs) with
    | some m => some m
    | none => searchId cs

/-- Worker for `findAllIds`: scan one character at a time; a positive
`skip` means that many characters of the current match are still to be
stepped over, so the scan resumes right after the match ends
(non-overlapping semantics).  A match produced by `matchIdAt` is a
nonempty prefix of the remaining input, so after consuming its head the
scan skips `m.length - 1` further characters. -/
def findAllIdsAux : List Char → Nat → List (List Char)
  | [], _ => []
  | _ :: cs, skip + 1 => findAllIdsAux cs skip
  | c :: cs, 0 =>
    match matchIdAt (c :: cs) with
    | some m => m :: findAllIdsAux cs (m.length - 1)
    | none => findAllIdsAux cs 0

/-- All leftmost non-overlapping matches: `self.course_pattern.finditer(text)`. -/
def findAllIds (cs : List Char) : List (List Char) :=
  findAllIdsAux cs 0

/-- Python `.upper()` on the matched group (ASCII input). -/
def upperOf (m : List Char) : String :=
  String.mk (m.map Char.toUpper)

/-- Python `str.strip()`: drop leading and trailing whitespace. -/
def stripChars (s : String) : String :=
  String.mk (((s.toList.dropWhile Char.isWhitespace).reverse.dropWhile
    Char.isWhitespace).reverse)

/-- `MITOCWScraper.extract_course_id` (lines 61-66): first pattern match in
the text, upper-cased; `None` when there is no match. -/
def extract_course_id (text : String) : Option String :=
  (searchId text.toList).map upperOf

/-! ## Sorting and deduplication

`parse_prerequisites` ends with `sorted(list(set(course_ids)))`: the distinct
identifiers in ascending lexicographic (code-point) order.  Python compares
strings by code points, embedded here as `strLt` on the character data. -/

/-- Lexicographic code-point comparison of character lists (Python string `<`). -/
def charsLt : List Char → List Char → Bool
  | [], [] => false
  | [], _ :: _ => true
  | _ :: _, [] => false
  | a :: as_, b :: bs => if a < b then true else if b < a then false else charsLt as_ bs

/-- Python string `<` on the underlying characters. -/
def strLt (a b : String) : Bool :=
  charsLt a.toList b.toList

/-- Insert a string into a strictly `strLt`-sorted duplicate-free list,
keeping it sorted and duplicate-free. -/
def insertDedup (x : String) : List String → List String
  | [] => [x]
  | y :: ys =>
    if x = y then y :: ys
    else if strLt x y then x :: y :: ys
    else y :: insertDedup x ys

/-- `sorted(list(set(l)))`: the distinct members of `l` in ascending order. -/
def sortedDedup : List String → List String
  | [] => []
  | x :: xs => insertDedup x (sortedDedup xs)

/-- `MITOCWScraper.parse_prerequisites` (lines 68-79): empty text yields `[]`;
otherwise every pattern match is upper-cased, collected into a set, and the
set is returned sorted. -/
def parse_prerequisites (text : String) : List String :=
  if text = "" then []
  else sortedDedup ((findAllIds text.toList).map upperOf)

/-- The Relation Merger (lines 302-309): `sorted(list(set(raw)))` followed by
removal of the course's own identifier. -/
def merge (raw : List String) (self_id : String) : List String :=
  (sortedDedup raw).filter (fun q => q != self_id)

/-! ## Sentence-window scan over raw page text

Method 4 of `fetch_course_page` (lines 284-290) runs
`re.finditer(r'prerequisite[s]?[:\s]+([^\.\n]+)', page_text, re.I)` and feeds
each captured group to `parse_prerequisites`.  The engine takes the literal
keyword case-insensitively, an optional `s`, a greedy run of colons and
whitespace, then a greedy nonempty run of characters other than `.` and
newline; on failure of the last part it backtracks the `[:\s]+` run one
character at a time. -/

/-- Characters matched by `[:\s]`. -/
def isColonWs (c : Char) : Bool :=
  c == ':' || c.isWhitespace

/-- Characters matched by `[^\.\n]`. -/
def notDotNl (c : Char) : Bool :=
  !(c == '.') && !(c == '\n')

/-- Backtracking of the greedy `[:\s]+` run: the largest split point
`k ≤ maxK` (with `k ≥ 1`) such that the character right after position `k`
can start the `[^\.\n]+` capture. -/
def pickSplit (rest : List Char) : Nat → Option Nat
  | 0 => none
  | k + 1 =>
    match List.drop (k + 1) rest with
    | c :: _ => if notDotNl c then some (k + 1) else pickSplit rest k
    | [] => pickSplit rest k

/-- Anchored match of `prerequisite[s]?[:\s]+([^\.\n]+)` (case-insensitive),
returning the captured group and the total number of characters consumed. -/
def matchWindowAt (cs : List Char) : Option (List Char × Nat) :=
  if (cs.take 12).map Char.toLower = "prerequisite".toList then
    let rest0 := List.drop 12 cs
    let sLen : Nat :=
      match rest0 with
      | c :: _ => if c.toLower == 's' then 1 else 0
      | [] => 0
    let rest := List.drop sLen rest0
    let run := rest.takeWhile isColonWs
    match pickSplit rest run.length with
    | some k =>
        let cap := (List.drop k rest).takeWhile notDotNl
        some (cap, 12 + sLen + k + cap.length)
    | none => none
  else none

/-- `re.finditer` for the sentence-window pattern: captured groups of all
leftmost non-overlapping matches.  A match always consumes at least the
12-character keyword, so continuing at `consumed - 1` into the tail resumes
right after it. -/
def findWindows : List Char → List (List Char)
  | [] => []
  | c :: cs =>
    match matchWindowAt (c :: cs) with
    | some (cap, consumed) => cap :: findWindows (List.drop (consumed - 1) cs)
    | none => findWindows cs
termination_by cs => cs.length
decreasing_by
  · simp [List.length_drop]; omega
  · simp

/-- The raw-text prerequisite mining of Method 4: every captured window is
parsed and the results are concatenated (the `extend` calls of line 290). -/
def mine_sentence_windows (text : String) : List String :=
  (findWindows text.toList).flatMap (fun w => parse_prerequisites (String.mk w))

/-! ## Recovering the course identifier from the URL

When no identifier was found in the title, `fetch_course_page` (lines
316-334) searches the last URL segment for `(\d+[-.]\d+)` and, failing that,
the whole URL for `/(\d+[-.]\d+)-`, replacing `-` with `.` and upper-casing.
`\d+` is greedy and the characters `-`/`.` are not digits, so the engine
always takes the maximal digit runs and never backtracks inside them. -/

/-- Anchored match of `\d+[-.]\d+`: maximal digit run, a dash or dot, and a
second maximal digit run. -/
def matchNumSepNumAt (cs : List Char) : Option (List Char) :=
  let run1 := cs.takeWhile Char.isDigit
  if run1.isEmpty then none
  else
    match cs.dropWhile Char.isDigit with
    | s :: rest2 =>
      if s == '-' || s == '.' then
        let run2 := rest2.takeWhile Char.isDigit
        if run2.isEmpty then none else some (run1 ++ s :: run2)
      else none
    | [] => none

/-- `re.search(r'(\d+[-.]\d+)', text)`: leftmost match. -/
def searchNumSepNum : List Char → Option (List Char)
  | [] => none
  | c :: cs =>
    match matchNumSepNumAt (c :: cs) with
    | some m => some m
    | none => searchNumSepNum cs

/-- Anchored match of `/(\d+[-.]\d+)-`, returning the group.  The second
digit run is maximal, so the trailing `-` can only follow the full run. -/
def matchSlashNumDashAt (cs : List Char) : Option (List Char) :=
  match cs with
  | c :: rest =>
    if c == '/' then
      match matchNumSepNumAt rest with
      | some m =>
        match List.drop m.length rest with
        | d :: _ => if d == '-' then some m else none
        | [] => none
      | none => none
    else none
  | [] => none

/-- `re.search(r'/(\d+[-.]\d+)-', url)`: leftmost match, group 1. -/
def searchSlashNumDash : List Char → Option (List Char)
  | [] => none
  | c :: cs =>
    match matchSlashNumDashAt (c :: cs) with
    | some m => some m
    | none => searchSlashNumDash cs

/-- `url.rstrip('/')`. -/
def rstripSlashes (cs : List Char) : List Char :=
  (cs.reverse.dropWhile (fun c => c == '/')).reverse

/-- `url.rstrip('/').split('/')[-1]`: the characters after the last slash. -/
def lastSegment (cs : List Char) : List Char :=
  ((rstripSlashes cs).reverse.takeWhile (fun c => !(c == '/'))).reverse

/-- `.replace('-', '.').upper()` applied to a matched group. -/
def dashToDotUpper (m : List Char) : String :=
  String.mk ((m.map (fun c => if c == '-' then '.' else c)).map Char.toUpper)

/-! ## Course records and page processing -/

/-- The `Course` dataclass (lines 27-44).  `department` and `level` are never
assigned by `fetch_course_page`, so page-derived records carry `none`. -/
structure Course where
  course_id : String
  title : String
  url : String
  department : Option String
  level : Option String
  description : Option String
  prerequisites : List String
  corequisites : List String
  ocw_published : Bool
deriving DecidableEq

/-- The post-mining part of `MITOCWScraper.fetch_course_page` (lines 227-350).
The excluded HTML layer supplies the title element's text (if any), the raw
candidate identifier lists accumulated by the mining strategies, and the meta
description; this function performs, in source order: identifier extraction
from the title, `sorted(list(set(...)))` on both candidate lists, the
self-reference filter (applied only when the identifier is already known),
identifier recovery from the URL, and record construction. -/
def process_course_page (title_elem : Option String) (url : String)
    (rawPrereqs rawCoreqs : List String) (description : Option String) :
    Option Course :=
  let course_id0 : Option String := title_elem.bind (fun t => extract_course_id t)
  let title0 : Option String := title_elem.map (fun t => stripChars t)
  let prereqs0 := sortedDedup rawPrereqs
  let coreqs0 := sortedDedup rawCoreqs
  let prereqs1 :=
    match course_id0 with
    | some cid => prereqs0.filter (fun p => p != cid)
    | none => prereqs0
  let coreqs1 :=
    match course_id0 with
    | some cid => coreqs0.filter (fun p => p != cid)
    | none => coreqs0
  let course_id1 : Option String :=
    match course_id0 with
    | some cid => some cid
    | none =>
      let last := lastSegment url.toList
      match searchNumSepNum last with
      | some m => some (dashToDotUpper m)
      | none => extract_course_id (String.mk last)
  let course_id2 : Option String :=
    match course_id1 with
    | some cid => some cid
    | none =>
      match searchSlashNumDash url.toList with
      | some m => some (dashToDotUpper m)
      | none => none
  match course_id2 with
  | none => none
  | some cid =>
    some {
      course_id := cid
      title :=
        match title0 with
        | some t => if t = "" then "Course " ++ cid else t
        | none => "Course " ++ cid
      url := url
      department := none
      level := none
      description := description
      prerequisites := prereqs1
      corequisites := coreqs1
      ocw_published := true }

/-! ## Course Record Store

`self.courses` is a Python dict from identifier to `Course`; `run` (line
425) performs `self.courses[course.course_id] = course`.  An insertion-
ordered association list with first-key replacement models dict assignment. -/

/-- Dict assignment `store[course.course_id] = course`: replace the value at
an existing key in place, or append a new binding at the end. -/
def upsert (store : List (String × Course)) (c : Course) :
    List (String × Course) :=
  match store with
  | [] => [(c.course_id, c)]
  | (k, v) :: rest =>
    if k = c.course_id then (k, c) :: rest else (k, v) :: upsert rest c

/-- Dict key membership `prereq_id in self.courses`. -/
def hasKey (store : List (String × Course)) (q : String) : Bool :=
  store.any (fun p => p.1 == q)

/-! ## Graph Assembler (`MITOCWScraper.build_graph`, lines 356-403) -/

/-- A node dict of the output graph (lines 363-371). -/
structure Node where
  id : String
  label : String
  title : String
  url : String
  department : Option String
  level : Option String
  description : Option String
deriving DecidableEq

/-- An edge dict of the output graph (lines 377-382, 388-393). -/
structure Edge where
  source : String
  target : String
  type : String
  label : String
deriving DecidableEq

/-- The assembled graph document with its metadata counters (lines 395-403). -/
structure Graph where
  nodes : List Node
  edges : List Edge
  total_courses : Nat
  total_prerequisites : Nat
  total_corequisites : Nat
deriving DecidableEq

/-- The node built from one course record (lines 363-371). -/
def nodeOfCourse (c : Course) : Node :=
  { id := c.course_id
    label := c.course_id ++ ": " ++ c.title
    title := c.title
    url := c.url
    department := c.department
    level := c.level
    description := c.description }

/-- Prerequisite edges (lines 374-382): for every record in store order, one
edge per listed prerequisite whose identifier is a key of the store. -/
def prereqEdgesOf (store : List (String × Course)) : List Edge :=
  store.flatMap (fun p =>
    (p.2.prerequisites.filter (fun q => hasKey store q)).map (fun q =>
      { source := q, target := p.1, type := "prerequisite",
        label := "prerequisite" }))

/-- Corequisite edges (lines 385-393), analogous. -/
def coreqEdgesOf (store : List (String × Course)) : List Edge :=
  store.flatMap (fun p =>
    (p.2.corequisites.filter (fun q => hasKey store q)).map (fun q =>
      { source := q, target := p.1, type := "corequisite",
        label := "corequisite" }))

/-- `MITOCWScraper.build_graph` (lines 356-403). -/
def build_graph (store : List (String × Course)) : Graph :=
  { nodes := store.map (fun p => nodeOfCourse p.2)
    edges := prereqEdgesOf store ++ coreqEdgesOf store
    total_courses := store.length
    total_prerequisites := (store.map (fun p => p.2.prerequisites.length)).sum
    total_corequisites := (store.map (fun p => p.2.corequisites.length)).sum }

/-! ## Graph Analyzer (`stats.py`, `analyze_graph`)

The analyzer reads a parsed JSON document.  Its top-level keys may be
missing: lines 21-23 read them with `data.get('nodes', [])`,
`data.get('edges', [])` and `data.get('metadata', {})`.  `GraphDoc` models
the document with optional top-level keys; node and edge dicts themselves
are the well-formed shapes that `build_graph` emits. -/

/-- The `metadata` object of the graph document. -/
structure Metadata where
  total_courses : Nat
  total_prerequisites : Nat
  total_corequisites : Nat
deriving DecidableEq

/-- A graph JSON document as seen by the analyzer: each top-level key may be
absent. -/
structure GraphDoc where
  nodes : Option (List Node)
  edges : Option (List Edge)
  metadata : Option Metadata
deriving DecidableEq

/-- `defaultdict(int)` increment `counts[k] += 1` on an insertion-ordered
association list: bump an existing binding in place or append `(k, 1)`. -/
def bumpCount (k : String) : List (String × Nat) → List (String × Nat)
  | [] => [(k, 1)]
  | (k2, n) :: rest =>
    if k2 = k then (k2, n + 1) :: rest else (k2, n) :: bumpCount k rest

/-- The in-degree tally of lines 72-76 / 104-108: for every edge of the given
relation type, bump the counter of its target. -/
def countTargets (typ : String) (edges : List Edge) : List (String × Nat) :=
  edges.foldl (fun acc e => if e.type == typ then bumpCount e.target acc else acc) []

/-- First-occurrence deduplication: the distinct members of a list in the
order each one is first encountered (the key order of a Python dict built by
repeated insertion). -/
def dedupFirst : List String → List String
  | [] => []
  | x :: xs => x :: dedupFirst (xs.filter (fun y => y != x))
termination_by l => l.length
decreasing_by
  simp only [List.length_cons]
  have := List.length_filter_le (fun b => b != y) ys
  omega

/-- `max(...)` over a list of counter values (used only on nonempty lists of
positive counts). -/
def listMax (l : List Nat) : Nat :=
  l.foldl max 0

/-- Stable insertion for a sort descending by count (`sorted(...,
key=lambda x: -x[1])`): an element goes before the first entry whose count
is strictly smaller, hence after every earlier-listed entry of equal count. -/
def insertByCount (x : String × Nat) : List (String × Nat) → List (String × Nat)
  | [] => [x]
  | y :: ys => if x.2 < y.2 then y :: insertByCount x ys else x :: y :: ys

/-- Python's stable `sorted` by descending count. -/
def sortByCountDesc : List (String × Nat) → List (String × Nat)
  | [] => []
  | x :: xs => insertByCount x (sortByCountDesc xs)

/-- The figures printed by the prerequisite analysis block (lines 78-98),
computed only when at least one prerequisite edge exists. -/
structure PrereqSummary where
  with_courses : Nat
  without_courses : Int
  max_in : Nat
  avg_in : ℚ
  top5 : List (String × Nat)
deriving DecidableEq

/-- Every figure `analyze_graph` reports (file reading and printing are
presentation; the computed values are collected here).  The corequisite
block (lines 104-113) reports only the pair (number of courses with at
least one incoming corequisite edge, total corequisite edges). -/
structure Stats where
  total_courses : Nat
  total_edges : Nat
  meta_prereqs : Nat
  meta_coreqs : Nat
  dept_counts : List (String × Nat)
  level_counts : List (String × Nat)
  prereq_summary : Option PrereqSummary
  coreq_summary : Option (Nat × Nat)
  entry_points : List String
  end_points : List String
deriving DecidableEq

/-- `node.get('department') or 'Unknown'` (also used for `level`): `None`
and the empty string are falsy. -/
def orUnknown (v : Option String) : String :=
  match v with
  | some d => if d = "" then "Unknown" else d
  | none => "Unknown"

/-- `analyze_graph` of `stats.py` (lines 11-133) minus file I/O and
printing: missing top-level keys default silently (lines 21-23), then the
statistics are computed as in the source. -/
def analyze_graph (doc : GraphDoc) : Stats :=
  let nodes := doc.nodes.getD []
  let edges := doc.edges.getD []
  let prereq_counts := countTargets "prerequisite" edges
  let coreq_counts := countTargets "corequisite" edges
  let all_targets := edges.map (fun e => e.target)
  let all_sources := edges.map (fun e => e.source)
  { total_courses := nodes.length
    total_edges := edges.length
    meta_prereqs := (doc.metadata.map (fun m => m.total_prerequisites)).getD 0
    meta_coreqs := (doc.metadata.map (fun m => m.total_corequisites)).getD 0
    dept_counts :=
      nodes.foldl (fun acc n => bumpCount (orUnknown n.department) acc) []
    level_counts :=
      nodes.foldl (fun acc n => bumpCount (orUnknown n.level) acc) []
    prereq_summary :=
      if prereq_counts.isEmpty then none
      else
        some
          { with_courses := prereq_counts.length
            without_courses := (nodes.length : Int) - prereq_counts.length
            max_in := listMax (prereq_counts.map (fun p => p.2))
            avg_in := ((((prereq_counts.map (fun p => p.2)).sum : ℕ)) : ℚ) /
              (((prereq_counts.length : ℕ)) : ℚ)
            top5 := (sortByCountDesc prereq_counts).take 5 }
    coreq_summary :=
      if coreq_counts.isEmpty then none
      else some (coreq_counts.length, (coreq_counts.map (fun p => p.2)).sum)
    entry_points :=
      (nodes.map (fun n => n.id)).filter (fun i => !(all_targets.contains i))
    end_points :=
      (nodes.map (fun n => n.id)).filter (fun i => !(all_sources.contains i)) }

/-! ## Spec-side definitions

`specShape` is written from the specification's words, not from the code:
a Course Identifier is "two digits, a dot, two-to-three digits, an optional
trailing letter" (spec section 3), the trailing letter being matched
case-insensitively (section 4.1).  It is used to state what the compiled
pattern of the Identifier Recognizer accepts. -/

/-- Canonical course-number shape per the spec: two digits, a dot,
two-to-three digits, an optional single trailing letter. -/
def specShape : List Char → Bool
  | [a, b, s, c, d] =>
    a.isDigit && b.isDigit && (s == '.') && c.isDigit && d.isDigit
  | [a, b, s, c, d, e] =>
    a.isDigit && b.isDigit && (s == '.') && c.isDigit && d.isDigit &&
      (e.isDigit || e.isAlpha)
  | [a, b, s, c, d, e, f] =>
    a.isDigit && b.isDigit && (s == '.') && c.isDigit && d.isDigit &&
      e.isDigit && f.isAlpha
  | _ => false

/-- Soundness statement for the Identifier Recognizer: the returned string is
the upper-casing of a substring of the text that has the canonical shape, and
no substring starting earlier in the text has the canonical shape. -/
def recognizerSound (t s : String) : Prop :=
  ∃ k m rest, List.drop k t.toList = m ++ rest ∧ specShape m = true
    ∧ s = upperOf m
    ∧ ∀ j m2 r2, j < k → List.drop j t.toList = m2 ++ r2 → specShape m2 = false

/-- Propositional form of the code-point comparison. -/
def sLt (a b : String) : Prop :=
  strLt a b = true

/-- Number of edges of a given relation type with the given source and
target (spec-side measurement over an edge list). -/
def countE (typ src tgt : String) (edges : List Edge) : Nat :=
  (edges.filter (fun e => e.type == typ && e.source == src && e.target == tgt)).length

/-- Number of occurrences of `t` in `ts` (spec-side in-degree measurement
when `ts` is the list of edge targets of one relation type). -/
def occCount (ts : List String) (t : String) : Nat :=
  (ts.filter (fun x => x == t)).length

/-- Occurrence tally of a list: each distinct member in first-encounter
order, paired with its number of occurrences.  This is the reference shape
of a `defaultdict(int)` counting pass. -/
def tallyOf (ts : List String) : List (String × Nat) :=
  (dedupFirst ts).map (fun t => (t, occCount ts t))

/-! ## Claim statements over the embedded functions -/

/-- Property bundle for claim C4: the Relation Merger returns a
duplicate-free, lexicographically sorted list without the course's own
identifier, depends only on the membership of its input, and is
idempotent. -/
def mergerClaim (S : List String) (self_id : String) : Prop :=
  (merge S self_id).Nodup
  ∧ (merge S self_id).Pairwise sLt
  ∧ self_id ∉ merge S self_id
  ∧ (∀ S2, (∀ x, x ∈ S ↔ x ∈ S2) → merge S self_id = merge S2 self_id)
  ∧ merge (merge S self_id) self_id = merge S self_id

/-- Property bundle for claim C5: every edge the Graph Assembler emits has
both endpoints present as store keys, and for every record with
duplicate-free relation lists there is exactly one edge per listed
identifier that is a store key and none for identifiers that are not. -/
def assemblerClaim (store : List (String × Course)) : Prop :=
  (∀ e ∈ (build_graph store).edges,
      hasKey store e.source = true ∧ hasKey store e.target = true)
  ∧ (∀ cid c, (cid, c) ∈ store → c.prerequisites.Nodup →
      ∀ q, countE "prerequisite" q cid (build_graph store).edges =
        if q ∈ c.prerequisites ∧ hasKey store q = true then 1 else 0)
  ∧ (∀ cid c, (cid, c) ∈ store → c.corequisites.Nodup →
      ∀ q, countE "corequisite" q cid (build_graph store).edges =
        if q ∈ c.corequisites ∧ hasKey store q = true then 1 else 0)

/-- Node identifiers of a graph document, in node-list order. -/
def nodeIds (doc : GraphDoc) : List String :=
  (doc.nodes.getD []).map (fun n => n.id)

/-- Edge list of a graph document (missing key defaulted, as lines 21-23). -/
def docEdges (doc : GraphDoc) : List Edge :=
  doc.edges.getD []

/-- Targets of the prerequisite edges, in edge-list order. -/
def prereqTargets (edges : List Edge) : List String :=
  (edges.filter (fun e => e.type == "prerequisite")).map (fun e => e.target)

/-- Targets of the corequisite edges, in edge-list order. -/
def coreqTargets (edges : List Edge) : List String :=
  (edges.filter (fun e => e.type == "corequisite")).map (fun e => e.target)

/-- Property bundle for claim C6: the analyzer's entry points are exactly
the node identifiers never appearing as an edge target (of either kind), in
node-list order, and symmetrically for end points and sources; in
particular both sets are disjoint from the respective edge-endpoint sets. -/
def connectivityClaim (doc : GraphDoc) : Prop :=
  List.Sublist (analyze_graph doc).entry_points (nodeIds doc)
  ∧ (∀ i, i ∈ (analyze_graph doc).entry_points ↔
      i ∈ nodeIds doc ∧ ∀ e ∈ docEdges doc, e.target ≠ i)
  ∧ (∀ i ∈ (analyze_graph doc).entry_points, ∀ e ∈ docEdges doc, e.target ≠ i)
  ∧ List.Sublist (analyze_graph doc).end_points (nodeIds doc)
  ∧ (∀ i, i ∈ (analyze_graph doc).end_points ↔
      i ∈ nodeIds doc ∧ ∀ e ∈ docEdges doc, e.source ≠ i)
  ∧ (∀ i ∈ (analyze_graph doc).end_points, ∀ e ∈ docEdges doc, e.source ≠ i)

/-- Property bundle for the amended claim C7.  For the prerequisite kind the
analyzer reports: the number of courses with at least one incoming
prerequisite edge, the number with zero, the maximum in-degree, the mean
in-degree over courses with at least one (as total edges over that
population), and the top five by in-degree obtained from a stable
descending sort of the tally, whose entries are the distinct targets in
edge-encounter order with their in-degrees.  For the corequisite kind only
the pair (courses with at least one incoming corequisite edge, total
corequisite edges) is reported. -/
def indegreeClaim (doc : GraphDoc) : Prop :=
  countTargets "prerequisite" (docEdges doc) = tallyOf (prereqTargets (docEdges doc))
  ∧ ((analyze_graph doc).prereq_summary = none ↔
      prereqTargets (docEdges doc) = [])
  ∧ (∀ sm, (analyze_graph doc).prereq_summary = some sm →
      sm.with_courses = ((nodeIds doc).filter
          (fun i => (prereqTargets (docEdges doc)).contains i)).length
      ∧ sm.without_courses = ((nodeIds doc).length : Int) -
          (((nodeIds doc).filter
            (fun i => (prereqTargets (docEdges doc)).contains i)).length : Int)
      ∧ (∀ t2, occCount (prereqTargets (docEdges doc)) t2 ≤ sm.max_in)
      ∧ (∃ t2 ∈ prereqTargets (docEdges doc),
          occCount (prereqTargets (docEdges doc)) t2 = sm.max_in)
      ∧ sm.avg_in = ((prereqTargets (docEdges doc)).length : ℚ) /
          ((((nodeIds doc).filter
            (fun i => (prereqTargets (docEdges doc)).contains i)).length : Nat) : ℚ)
      ∧ ∃ srt, List.Perm srt (countTargets "prerequisite" (docEdges doc))
          ∧ srt.Pairwise (fun a b => b.2 ≤ a.2)
          ∧ (∀ c2, srt.filter (fun q => q.2 == c2) =
              (countTargets "prerequisite" (docEdges doc)).filter
                (fun q => q.2 == c2))
          ∧ sm.top5 = srt.take 5)
  ∧ ((analyze_graph doc).coreq_summary = none ↔
      coreqTargets (docEdges doc) = [])
  ∧ (∀ pr, (analyze_graph doc).coreq_summary = some pr →
      pr.1 = (dedupFirst (coreqTargets (docEdges doc))).length
      ∧ pr.2 = (coreqTargets (docEdges doc)).length)

/-- Property bundle for claim C10: the metadata counters are the sums of the
record relation-list lengths, hence bound the emitted edge counts of the
corresponding type from above, strictly when some listed reference is
absent from the store. -/
def metadataClaim (store : List (String × Course)) : Prop :=
  (build_graph store).total_prerequisites =
      (store.map (fun p => p.2.prerequisites.length)).sum
  ∧ (build_graph store).total_corequisites =
      (store.map (fun p => p.2.corequisites.length)).sum
  ∧ ((build_graph store).edges.filter (fun e => e.type == "prerequisite")).length ≤
      (build_graph store).total_prerequisites
  ∧ ((build_graph store).edges.filter (fun e => e.type == "corequisite")).length ≤
      (build_graph store).total_corequisites
  ∧ ((∃ p ∈ store, ∃ q ∈ p.2.prerequisites, hasKey store q = false) →
      ((build_graph store).edges.filter (fun e => e.type == "prerequisite")).length <
        (build_graph store).total_prerequisites)
  ∧ ((∃ p ∈ store, ∃ q ∈ p.2.corequisites, hasKey store q = false) →
      ((build_graph store).edges.filter (fun e => e.type == "corequisite")).length <
        (build_graph store).total_corequisites)

/-! ## Concrete instances used by witnesses and counterexamples -/

/-- Sample record in the shape `_add_sample_courses` produces. -/
def course18_01 : Course :=
  { course_id := "18.01", title := "Single Variable Calculus",
    url := "https://ocw.mit.edu/courses/18-01-single-variable-calculus-fall-2006/",
    department := none, level := none, description := none,
    prerequisites := [], corequisites := [], ocw_published := true }

/-- Sample record listing one resolvable and one unresolvable reference. -/
def course18_02 : Course :=
  { course_id := "18.02", title := "Multivariable Calculus",
    url := "https://ocw.mit.edu/courses/18-02-multivariable-calculus-fall-2007/",
    department := none, level := none, description := none,
    prerequisites := ["18.01", "99.99"], corequisites := ["18.01"],
    ocw_published := true }

/-- Two-record store with one dangling prerequisite reference. -/
def storePair : List (String × Course) :=
  [("18.01", course18_01), ("18.02", course18_02)]

/-- A display-only node as the analyzer sees it. -/
def nodeOfId (i : String) : Node :=
  { id := i, label := i, title := i, url := i,
    department := none, level := none, description := none }

/-- A prerequisite edge literal. -/
def prereqEdge (s t : String) : Edge :=
  { source := s, target := t, type := "prerequisite", label := "prerequisite" }

/-- A corequisite edge literal. -/
def coreqEdge (s t : String) : Edge :=
  { source := s, target := t, type := "corequisite", label := "corequisite" }

/-- The spec section 8 scenario graph: three courses, one prerequisite
edge 18.01 to 18.02. -/
def docScenario : GraphDoc :=
  { nodes := some [nodeOfId "18.01", nodeOfId "18.02", nodeOfId "6.042"],
    edges := some [prereqEdge "18.01" "18.02"],
    metadata := none }

/-- Five courses and three prerequisite edges with in-degrees 2 and 1. -/
def docPrereqMix : GraphDoc :=
  { nodes := some [nodeOfId "X", nodeOfId "Y", nodeOfId "A", nodeOfId "B",
      nodeOfId "C"],
    edges := some [prereqEdge "A" "X", prereqEdge "B" "X", prereqEdge "C" "Y"],
    metadata := none }

/-- Five courses and three corequisite edges with in-degrees 2 and 1: the
mean corequisite in-degree over courses that have one is 3/2. -/
def docCoreqMix : GraphDoc :=
  { nodes := some [nodeOfId "X", nodeOfId "Y", nodeOfId "A", nodeOfId "B",
      nodeOfId "C"],
    edges := some [coreqEdge "A" "X", coreqEdge "B" "X", coreqEdge "C" "Y"],
    metadata := none }

/-- Two records carrying the same identifier with different field values. -/
def courseV1 : Course :=
  { course_id := "6.006", title := "Old Title", url := "u1",
    department := none, level := none, description := none,
    prerequisites := ["6.042"], corequisites := [], ocw_published := true }

/-- Replacement record for the same identifier, all fields different. -/
def courseV2 : Course :=
  { course_id := "6.006", title := "Introduction to Algorithms", url := "u2",
    department := some "EECS", level := some "Undergraduate",
    description := some "algorithms", prerequisites := ["18.01"],
    corequisites := ["6.042"], ocw_published := false }

/-! ## Lemmas about the lexicographic order and `sortedDedup` -/

theorem charsLt_irrefl (l : List Char) : charsLt l l = false := by
  induction l with
  | nil => rfl
  | cons c cs ih => simp [charsLt, ih]

theorem charsLt_cons_iff (x y : Char) (xs ys : List Char) :
    charsLt (x :: xs) (y :: ys) = true ↔ x < y ∨ (x = y ∧ charsLt xs ys = true) := by
  simp only [charsLt]
  split_ifs with h1 h2
  · simp [h1]
  · simp only [Bool.false_eq_true, false_iff]
    rintro (h | ⟨rfl, -⟩)
    · exact h1 h
    · exact lt_irrefl _ h2
  · have hxy : x = y := le_antisymm (not_lt.mp h2) (not_lt.mp h1)
    simp [hxy]

theorem charsLt_trans : ∀ {a b c : List Char},
    charsLt a b = true → charsLt b c = true → charsLt a c = true
  | [], _ :: _, _ :: _, _, _ => rfl
  | x :: xs, y :: ys, z :: zs, hab, hbc => by
    rw [charsLt_cons_iff] at hab hbc ⊢
    rcases hab with h1 | ⟨rfl, h1⟩
    · rcases hbc with h2 | ⟨rfl, h2⟩
      · exact Or.inl (lt_trans h1 h2)
      · exact Or.inl h1
    · rcases hbc with h2 | ⟨rfl, h2⟩
      · exact Or.inl h2
      · exact Or.inr ⟨rfl, charsLt_trans h1 h2⟩

theorem charsLt_total : ∀ (a b : List Char),
    charsLt a b = true ∨ a = b ∨ charsLt b a = true
  | [], [] => Or.inr (Or.inl rfl)
  | [], _ :: _ => Or.inl rfl
  | _ :: _, [] => Or.inr (Or.inr rfl)
  | x :: xs, y :: ys => by
    rcases lt_trichotomy x y with h | rfl | h
    · exact Or.inl ((charsLt_cons_iff _ _ _ _).mpr (Or.inl h))
    · rcases charsLt_total xs ys with h | rfl | h
      · exact Or.inl ((charsLt_cons_iff _ _ _ _).mpr (Or.inr ⟨rfl, h⟩))
      · exact Or.inr (Or.inl rfl)
      · exact Or.inr (Or.inr ((charsLt_cons_iff _ _ _ _).mpr (Or.inr ⟨rfl, h⟩)))
    · exact Or.inr (Or.inr ((charsLt_cons_iff _ _ _ _).mpr (Or.inl h)))

theorem strLt_irrefl (a : String) : ¬ sLt a a := by
  simp [sLt, strLt, charsLt_irrefl]

theorem strLt_trans {a b c : String} (h1 : sLt a b) (h2 : sLt b c) : sLt a c :=
  charsLt_trans h1 h2

theorem strLt_asymm {a b : String} (h1 : sLt a b) (h2 : sLt b a) : False :=
  strLt_irrefl a (strLt_trans h1 h2)

theorem strLt_ne {a b : String} (h : sLt a b) : a ≠ b := by
  rintro rfl; exact strLt_irrefl a h

theorem strLt_total {a b : String} (h : a ≠ b) : sLt a b ∨ sLt b a := by
  rcases charsLt_total a.toList b.toList with h1 | h1 | h1
  · exact Or.inl h1
  · exact absurd (by apply String.ext; simpa [String.toList] using h1) h
  · exact Or.inr h1

theorem mem_insertDedup {x a : String} {l : List String} :
    a ∈ insertDedup x l ↔ a = x ∨ a ∈ l := by
  induction l with
  | nil => simp [insertDedup]
  | cons y ys ih =>
    simp only [insertDedup]
    split_ifs with h1 h2
    · subst h1
      simp only [List.mem_cons]
      tauto
    · simp [List.mem_cons]
    · simp only [List.mem_cons, ih]
      tauto

theorem pairwise_insertDedup (x : String) {l : List String}
    (h : l.Pairwise sLt) : (insertDedup x l).Pairwise sLt := by
  induction l with
  | nil => simp [insertDedup, List.pairwise_singleton]
  | cons y ys ih =>
    rcases List.pairwise_cons.mp h with ⟨hy, hys⟩
    simp only [insertDedup]
    split_ifs with h1 h2
    · exact h
    · refine List.pairwise_cons.mpr ⟨?_, h⟩
      intro b hb
      rcases List.mem_cons.mp hb with rfl | hb
      · exact h2
      · exact strLt_trans h2 (hy b hb)
    · refine List.pairwise_cons.mpr ⟨?_, ih hys⟩
      intro b hb
      rcases mem_insertDedup.mp hb with rfl | hb
      · rcases strLt_total (fun hxy => h1 hxy.symm) with hlt | hlt
        · exact hlt
        · exact absurd hlt h2
      · exact hy b hb

theorem mem_sortedDedup {a : String} {l : List String} :
    a ∈ sortedDedup l ↔ a ∈ l := by
  induction l with
  | nil => simp [sortedDedup]
  | cons x xs ih => simp [sortedDedup, mem_insertDedup, ih]

theorem pairwise_sortedDedup (l : List String) :
    (sortedDedup l).Pairwise sLt := by
  induction l with
  | nil => simp [sortedDedup]
  | cons x xs ih => exact pairwise_insertDedup x ih

theorem nodup_of_pairwise_sLt {l : List String} (h : l.Pairwise sLt) :
    l.Nodup :=
  h.imp (fun hab => strLt_ne hab)

theorem eq_of_pairwise_sLt_mem_iff : ∀ {l₁ l₂ : List String},
    l₁.Pairwise sLt → l₂.Pairwise sLt → (∀ x, x ∈ l₁ ↔ x ∈ l₂) → l₁ = l₂
  | [], [], _, _, _ => rfl
  | [], y :: ys, _, _, hm => by
    exact absurd ((hm y).mpr (List.mem_cons_self y ys)) (List.not_mem_nil y)
  | x :: xs, [], _, _, hm => by
    exact absurd ((hm x).mp (List.mem_cons_self x xs)) (List.not_mem_nil x)
  | x :: xs, y :: ys, h1, h2, hm => by
    rcases List.pairwise_cons.mp h1 with ⟨hx, hxs⟩
    rcases List.pairwise_cons.mp h2 with ⟨hy, hys⟩
    have hxy : x = y := by
      by_contra hne
      have hx2 : x ∈ ys := by
        rcases List.mem_cons.mp ((hm x).mp (List.mem_cons_self x xs)) with h | h
        · exact absurd h hne
        · exact h
      have hy1 : y ∈ xs := by
        rcases List.mem_cons.mp ((hm y).mpr (List.mem_cons_self y ys)) with h | h
        · exact absurd h.symm hne
        · exact h
      exact strLt_asymm (hx y hy1) (hy x hx2)
    subst hxy
    have htail : ∀ z, z ∈ xs ↔ z ∈ ys := by
      intro z
      constructor
      · intro hz
        rcases List.mem_cons.mp ((hm z).mp (List.mem_cons.mpr (Or.inr hz))) with h | h
        · exact absurd h (Ne.symm (strLt_ne (hx z hz)))
        · exact h
      · intro hz
        rcases List.mem_cons.mp ((hm z).mpr (List.mem_cons.mpr (Or.inr hz))) with h | h
        · exact absurd h (Ne.symm (strLt_ne (hy z hz)))
        · exact h
    rw [eq_of_pairwise_sLt_mem_iff hxs hys htail]

theorem sortedDedup_mem_congr {l₁ l₂ : List String}
    (h : ∀ x, x ∈ l₁ ↔ x ∈ l₂) : sortedDedup l₁ = sortedDedup l₂ :=
  eq_of_pairwise_sLt_mem_iff (pairwise_sortedDedup l₁) (pairwise_sortedDedup l₂)
    (fun x => by rw [mem_sortedDedup, mem_sortedDedup]; exact h x)

theorem sortedDedup_of_pairwise {l : List String} (h : l.Pairwise sLt) :
    sortedDedup l = l :=
  eq_of_pairwise_sLt_mem_iff (pairwise_sortedDedup l) h
    (fun _ => mem_sortedDedup)

/-! ## Lemmas about the Relation Merger -/

theorem pairwise_merge (raw : List String) (self_id : String) :
    (merge raw self_id).Pairwise sLt :=
  (pairwise_sortedDedup raw).filter _

theorem mem_merge {a self_id : String} {raw : List String} :
    a ∈ merge raw self_id ↔ a ∈ raw ∧ a ≠ self_id := by
  simp [merge, List.mem_filter, mem_sortedDedup, bne_iff_ne]

theorem merge_idem (raw : List String) (self_id : String) :
    merge (merge raw self_id) self_id = merge raw self_id := by
  show (sortedDedup (merge raw self_id)).filter (fun q => q != self_id) =
    merge raw self_id
  rw [sortedDedup_of_pairwise (pairwise_merge raw self_id)]
  apply List.filter_eq_self.mpr
  intro a ha
  exact bne_iff_ne.mpr (mem_merge.mp ha).2

/-! ## Lemmas about the Identifier Recognizer -/

theorem matchTail_cases : ∀ {cs t : List Char}, matchTail cs = some t →
    (∃ rest, cs = t ++ rest) ∧
    ((∃ a b, t = [a, b] ∧ a.isDigit ∧ b.isDigit) ∨
     (∃ a b c, t = [a, b, c] ∧ a.isDigit ∧ b.isDigit ∧ (c.isDigit ∨ c.isAlpha)) ∨
     (∃ a b c l, t = [a, b, c, l] ∧ a.isDigit ∧ b.isDigit ∧ c.isDigit ∧ l.isAlpha))
  | [], t, h => by simp [matchTail] at h
  | [a], t, h => by simp [matchTail] at h
  | [a, b], t, h => by
    simp only [matchTail] at h
    split_ifs at h with hab
    rcases Bool.and_eq_true_iff.mp hab with ⟨ha, hb⟩
    rcases Option.some_injective _ h with rfl
    exact ⟨⟨[], rfl⟩, Or.inl ⟨a, b, rfl, ha, hb⟩⟩
  | [a, b, c], t, h => by
    simp only [matchTail] at h
    split_ifs at h with hab hc hcA
    all_goals rcases Bool.and_eq_true_iff.mp hab with ⟨ha, hb⟩
    all_goals rcases Option.some_injective _ h with rfl
    · exact ⟨⟨[], rfl⟩, Or.inr (Or.inl ⟨a, b, c, rfl, ha, hb, Or.inl hc⟩)⟩
    · exact ⟨⟨[], rfl⟩, Or.inr (Or.inl ⟨a, b, c, rfl, ha, hb, Or.inr hcA⟩)⟩
    · exact ⟨⟨[c], rfl⟩, Or.inl ⟨a, b, rfl, ha, hb⟩⟩
  | a :: b :: c :: l :: rest3, t, h => by
    simp only [matchTail] at h
    split_ifs at h with hab hc hl hcA
    all_goals rcases Bool.and_eq_true_iff.mp hab with ⟨ha, hb⟩
    all_goals rcases Option.some_injective _ h with rfl
    · exact ⟨⟨rest3, rfl⟩, Or.inr (Or.inr ⟨a, b, c, l, rfl, ha, hb, hc, hl⟩)⟩
    · exact ⟨⟨l :: rest3, rfl⟩, Or.inr (Or.inl ⟨a, b, c, rfl, ha, hb, Or.inl hc⟩)⟩
    · exact ⟨⟨l :: rest3, rfl⟩, Or.inr (Or.inl ⟨a, b, c, rfl, ha, hb, Or.inr hcA⟩)⟩
    · exact ⟨⟨c :: l :: rest3, rfl⟩, Or.inl ⟨a, b, rfl, ha, hb⟩⟩

theorem matchTail_isSome : ∀ {a b : Char} (rest : List Char),
    a.isDigit = true → b.isDigit = true →
    (matchTail (a :: b :: rest)).isSome = true
  | a, b, [], ha, hb => by simp [matchTail, ha, hb]
  | a, b, [c], ha, hb => by
    simp only [matchTail, ha, hb, Bool.and_self, if_true]
    split_ifs <;> rfl
  | a, b, c :: l :: rest3, ha, hb => by
    simp only [matchTail, ha, hb, Bool.and_self, if_true]
    split_ifs <;> rfl

theorem matchIdAt_sound : ∀ {cs m : List Char}, matchIdAt cs = some m →
    specShape m = true ∧ ∃ rest, cs = m ++ rest
  | [], m, h => by simp [matchIdAt] at h
  | [a], m, h => by simp [matchIdAt] at h
  | [a, b], m, h => by simp [matchIdAt] at h
  | d1 :: d2 :: c :: rest, m, h => by
    simp only [matchIdAt] at h
    split_ifs at h with hcond
    · rcases Bool.and_eq_true_iff.mp hcond with ⟨hd, hc⟩
      rcases Bool.and_eq_true_iff.mp hd with ⟨h1, h2⟩
      have hcdot : c = '.' := eq_of_beq hc
      rcases hmt : matchTail rest with _ | t
      · rw [hmt] at h; exact absurd h (by simp)
      · rw [hmt] at h
        rcases Option.some_injective _ h with rfl
        rcases matchTail_cases hmt with ⟨⟨r2, hr2⟩, hshape⟩
        subst hcdot
        constructor
        · rcases hshape with ⟨a, b, rfl, ha, hb⟩ | ⟨a, b, e, rfl, ha, hb, he⟩ |
            ⟨a, b, e, l, rfl, ha, hb, he, hl⟩
          · simp [specShape, h1, h2, ha, hb]
          · rcases he with he | he <;> simp [specShape, h1, h2, ha, hb, he]
          · simp [specShape, h1, h2, ha, hb, he, hl]
        · exact ⟨r2, by simp [hr2]⟩

theorem matchIdAt_isSome_of_tail {a b s : Char} (tl : List Char)
    {rest : List Char}
    (ha : a.isDigit = true) (hb : b.isDigit = true) (hs : s = '.')
    (hts : ∀ r2, (matchTail (tl ++ r2)).isSome = true) :
    (matchIdAt (a :: b :: s :: (tl ++ rest))).isSome = true := by
  subst hs
  simp only [matchIdAt, ha, hb, Bool.and_self, beq_self_eq_true, if_true]
  rcases hmt : matchTail (tl ++ rest) with _ | t
  · have := hts rest
    rw [hmt] at this
    simp at this
  · simp

theorem matchIdAt_complete : ∀ {m : List Char} (rest : List Char),
    specShape m = true → (matchIdAt (m ++ rest)).isSome = true
  | [a, b, s, c, d], rest, h => by
    simp only [specShape, Bool.and_eq_true, beq_iff_eq] at h
    rcases h with ⟨⟨⟨⟨ha, hb⟩, hs⟩, hc⟩, hd⟩
    exact matchIdAt_isSome_of_tail [c, d] ha hb hs
      (fun r2 => matchTail_isSome r2 hc hd)
  | [a, b, s, c, d, e], rest, h => by
    simp only [specShape, Bool.and_eq_true, beq_iff_eq] at h
    rcases h with ⟨⟨⟨⟨⟨ha, hb⟩, hs⟩, hc⟩, hd⟩, he⟩
    exact matchIdAt_isSome_of_tail [c, d, e] ha hb hs
      (fun r2 => matchTail_isSome (e :: r2) hc hd)
  | [a, b, s, c, d, e, f], rest, h => by
    simp only [specShape, Bool.and_eq_true, beq_iff_eq] at h
    rcases h with ⟨⟨⟨⟨⟨⟨ha, hb⟩, hs⟩, hc⟩, hd⟩, he⟩, hf⟩
    exact matchIdAt_isSome_of_tail [c, d, e, f] ha hb hs
      (fun r2 => matchTail_isSome (e :: f :: r2) hc hd)
  | [], _, h => by simp [specShape] at h
  | [a], _, h => by simp [specShape] at h
  | [a, b], _, h => by simp [specShape] at h
  | [a, b, s], _, h => by simp [specShape] at h
  | [a, b, s, c], _, h => by simp [specShape] at h
  | a :: b :: s :: c :: d :: e :: f :: g :: tl, _, h => by
    simp [specShape] at h

theorem searchId_first : ∀ {cs m : List Char}, searchId cs = some m →
    ∃ k, matchIdAt (List.drop k cs) = some m ∧
      ∀ j, j < k → matchIdAt (List.drop j cs) = none
  | [], m, h => by simp [searchId] at h
  | c :: cs, m, h => by
    rcases hm : matchIdAt (c :: cs) with _ | m2
    · rw [searchId, hm] at h
      rcases searchId_first h with ⟨k, h1, h2⟩
      refine ⟨k + 1, by simpa using h1, ?_⟩
      intro j hj
      rcases j with _ | j
      · simpa using hm
      · simpa using h2 j (by omega)
    · rw [searchId, hm] at h
      rcases Option.some_injective _ h with rfl
      exact ⟨0, hm, by omega⟩

/-- Soundness of `extract_course_id`: any returned string is the upper-cased
first substring of the text that has the canonical course-number shape. -/
theorem extract_course_id_sound {t s : String}
    (h : extract_course_id t = some s) : recognizerSound t s := by
  unfold extract_course_id at h
  rcases hse : searchId t.toList with _ | m
  · rw [hse] at h
    exact absurd h (by simp)
  · rw [hse] at h
    have hs : s = upperOf m := by
      simpa using h.symm
    rcases searchId_first hse with ⟨k, h1, h2⟩
    rcases matchIdAt_sound h1 with ⟨hshape, rest, hrest⟩
    refine ⟨k, m, rest, hrest, hshape, hs, ?_⟩
    intro j m2 r2 hj hsplit
    by_contra hbad
    have hsh2 : specShape m2 = true := Bool.not_eq_false _ |>.mp hbad
    have := matchIdAt_complete r2 hsh2
    rw [← hsplit, h2 j hj] at this
    simp at this

/-! ## The sentence-window scan can never produce an identifier -/

theorem matchIdAt_none_of_no_dot : ∀ {cs : List Char}, '.' ∉ cs →
    matchIdAt cs = none
  | [], _ => rfl
  | [a], _ => rfl
  | [a, b], _ => rfl
  | d1 :: d2 :: c :: rest, h => by
    have hc : c ≠ '.' := by
      intro hc
      exact h (by simp [hc])
    simp [matchIdAt, beq_eq_false_iff_ne.mpr hc]

theorem findAllIdsAux_nil_of_no_dot : ∀ (cs : List Char) (k : Nat),
    '.' ∉ cs → findAllIdsAux cs k = []
  | [], _, _ => rfl
  | _ :: cs, k + 1, h =>
    findAllIdsAux_nil_of_no_dot cs k (fun hm => h (List.mem_cons_of_mem _ hm))
  | c :: cs, 0, h => by
    rw [findAllIdsAux, matchIdAt_none_of_no_dot h]
    exact findAllIdsAux_nil_of_no_dot cs 0
      (fun hm => h (List.mem_cons_of_mem _ hm))

theorem findAllIds_nil_of_no_dot (cs : List Char) (h : '.' ∉ cs) :
    findAllIds cs = [] :=
  findAllIdsAux_nil_of_no_dot cs 0 h

theorem parse_prerequisites_nil_of_no_dot (text : String)
    (h : '.' ∉ text.toList) : parse_prerequisites text = [] := by
  unfold parse_prerequisites
  split_ifs with ht
  · rfl
  · rw [findAllIds_nil_of_no_dot _ h]
    rfl

theorem matchWindowAt_no_dot {cs cap : List Char} {n : Nat}
    (h : matchWindowAt cs = some (cap, n)) : '.' ∉ cap := by
  simp only [matchWindowAt] at h
  split_ifs at h with hkw
  split at h
  · obtain ⟨h1, h2⟩ := Prod.mk.injEq _ _ _ _ |>.mp (Option.some_injective _ h)
    subst h1
    intro hdot
    have := List.mem_takeWhile_imp hdot
    simp [notDotNl] at this
  · exact absurd h (by simp)

theorem findWindows_no_dot : ∀ (cs : List Char) {w : List Char},
    w ∈ findWindows cs → '.' ∉ w := by
  intro cs
  induction cs using findWindows.induct with
  | case1 => simp [findWindows]
  | case2 c cs cap consumed hm ih =>
    intro w hw
    rw [findWindows, hm] at hw
    rcases List.mem_cons.mp hw with rfl | hw
    · exact matchWindowAt_no_dot hm
    · exact ih hw
  | case3 c cs hm ih =>
    intro w hw
    rw [findWindows, hm] at hw
    exact ih hw

/-- Over any raw page text, the Method 4 scan of lines 287-290 yields no
identifiers at all: its captured window never contains a period, while every
string the course pattern accepts contains one. -/
theorem mine_sentence_windows_nil (text : String) :
    mine_sentence_windows text = [] := by
  unfold mine_sentence_windows
  rw [List.flatMap_eq_nil_iff]
  intro w hw
  apply parse_prerequisites_nil_of_no_dot
  have := findWindows_no_dot text.toList hw
  simpa using this

/-! ## Lemmas about the Course Record Store -/

theorem lookup_upsert (store : List (String × Course)) (c : Course) :
    List.lookup c.course_id (upsert store c) = some c := by
  induction store with
  | nil => simp [upsert, List.lookup]
  | cons p rest ih =>
    rcases p with ⟨k, v⟩
    simp only [upsert]
    split_ifs with hk
    · simp [List.lookup, hk]
    · simpa [List.lookup, beq_eq_false_iff_ne.mpr (Ne.symm hk)] using ih

theorem lookup_upsert_ne (store : List (String × Course)) (c : Course)
    {k2 : String} (h : k2 ≠ c.course_id) :
    List.lookup k2 (upsert store c) = List.lookup k2 store := by
  induction store with
  | nil => simp [upsert, List.lookup, beq_eq_false_iff_ne.mpr h]
  | cons p rest ih =>
    rcases p with ⟨k, v⟩
    simp only [upsert]
    split_ifs with hk
    · subst hk
      simp [List.lookup, beq_eq_false_iff_ne.mpr h]
    · simp [List.lookup, ih]

/-! ## Lemmas about the Graph Assembler -/

theorem length_filter_flatMap {α β : Type} (l : List α) (f : α → List β)
    (p : β → Bool) :
    ((l.flatMap f).filter p).length =
      (l.map (fun a => ((f a).filter p).length)).sum := by
  induction l with
  | nil => rfl
  | cons a l ih =>
    simp [List.flatMap_cons, List.filter_append, ih]

theorem type_of_mem_prereqEdgesOf {store : List (String × Course)} {e : Edge}
    (h : e ∈ prereqEdgesOf store) : e.type = "prerequisite" := by
  rcases List.mem_flatMap.mp h with ⟨p, _, hmem⟩
  rcases List.mem_map.mp hmem with ⟨q, _, rfl⟩
  rfl

theorem type_of_mem_coreqEdgesOf {store : List (String × Course)} {e : Edge}
    (h : e ∈ coreqEdgesOf store) : e.type = "corequisite" := by
  rcases List.mem_flatMap.mp h with ⟨p, _, hmem⟩
  rcases List.mem_map.mp hmem with ⟨q, _, rfl⟩
  rfl

theorem hasKey_of_mem {store : List (String × Course)} {p : String × Course}
    (h : p ∈ store) : hasKey store p.1 = true := by
  simp only [hasKey, List.any_eq_true]
  exact ⟨p, h, by simp⟩

theorem endpoints_of_mem_prereqEdgesOf {store : List (String × Course)}
    {e : Edge} (h : e ∈ prereqEdgesOf store) :
    hasKey store e.source = true ∧ hasKey store e.target = true := by
  rcases List.mem_flatMap.mp h with ⟨p, hp, hmem⟩
  rcases List.mem_map.mp hmem with ⟨q, hq, rfl⟩
  exact ⟨(List.mem_filter.mp hq).2, hasKey_of_mem hp⟩

theorem endpoints_of_mem_coreqEdgesOf {store : List (String × Course)}
    {e : Edge} (h : e ∈ coreqEdgesOf store) :
    hasKey store e.source = true ∧ hasKey store e.target = true := by
  rcases List.mem_flatMap.mp h with ⟨p, hp, hmem⟩
  rcases List.mem_map.mp hmem with ⟨q, hq, rfl⟩
  exact ⟨(List.mem_filter.mp hq).2, hasKey_of_mem hp⟩

theorem filter_hk_filter_eq_length {l : List String} (hk : String → Bool)
    (q : String) (hnd : l.Nodup) :
    ((l.filter hk).filter (fun x => x == q)).length =
      if q ∈ l ∧ hk q = true then 1 else 0 := by
  rw [List.filter_filter]
  induction l with
  | nil => simp
  | cons a l ih =>
    rcases List.nodup_cons.mp hnd with ⟨ha, hnd2⟩
    have ihl := ih hnd2
    rw [List.filter_cons]
    by_cases haq : a = q
    · subst haq
      have hql : ¬ (a ∈ l ∧ hk a = true) := fun h => ha h.1
      rw [if_neg hql] at ihl
      by_cases hka : hk a = true
      · rw [if_pos (by simp [hka]), if_pos ⟨List.mem_cons_self a l, hka⟩]
        simp [ihl]
      · have hkaf : hk a = false := by simpa using hka
        rw [if_neg (by simp [hkaf]), ihl, if_neg (fun h => hka h.2)]
    · have hbeq : (a == q) = false := beq_eq_false_iff_ne.mpr haq
      rw [if_neg (by simp [hbeq]), ihl]
      by_cases hq : q ∈ l ∧ hk q = true
      · rw [if_pos hq, if_pos ⟨List.mem_cons_of_mem a hq.1, hq.2⟩]
      · rw [if_neg hq, if_neg (fun h => hq
          ⟨(List.mem_cons.mp h.1).resolve_left (fun he => haq he.symm), h.2⟩)]

theorem sum_map_zero {α : Type} (l : List α) (v : α → Nat)
    (h : ∀ p ∈ l, v p = 0) : (l.map v).sum = 0 := by
  induction l with
  | nil => rfl
  | cons a l ih =>
    simp [h a (List.mem_cons_self a l), ih (fun p hp => h p (List.mem_cons_of_mem a hp))]

theorem sum_map_single {store : List (String × Course)}
    (hnd : (store.map Prod.fst).Nodup) {cid : String} {c : Course}
    (hmem : (cid, c) ∈ store) (v : String × Course → Nat)
    (hv : ∀ p ∈ store, p.1 ≠ cid → v p = 0) :
    (store.map v).sum = v (cid, c) := by
  induction store with
  | nil => exact absurd hmem (List.not_mem_nil _)
  | cons p rest ih =>
    rcases List.nodup_cons.mp hnd with ⟨hp1, hnd2⟩
    by_cases hkey : p.1 = cid
    · have hpc : p = (cid, c) := by
        rcases List.mem_cons.mp hmem with h | h
        · exact h.symm
        · exact absurd (hkey ▸ (List.mem_map.mpr ⟨(cid, c), h, rfl⟩)) hp1
      subst hpc
      have hrest : ((rest.map v)).sum = 0 := by
        apply sum_map_zero
        intro p2 hp2
        apply hv p2 (List.mem_cons_of_mem _ hp2)
        intro hk2
        exact hp1 (hk2 ▸ List.mem_map.mpr ⟨p2, hp2, rfl⟩)
      simp [hrest]
    · have hm2 : (cid, c) ∈ rest := by
        rcases List.mem_cons.mp hmem with h | h
        · exact absurd (congrArg Prod.fst h.symm) hkey
        · exact h
      rw [List.map_cons, List.sum_cons,
        hv p (List.mem_cons_self _ _) hkey,
        ih hnd2 hm2 (fun p2 hp2 => hv p2 (List.mem_cons_of_mem _ hp2))]
      simp

theorem length_flatMap {α β : Type} (l : List α) (f : α → List β) :
    (l.flatMap f).length = (l.map (fun a => (f a).length)).sum := by
  induction l with
  | nil => rfl
  | cons a l ih => simp [List.flatMap_cons, ih]

theorem graph_prereq_filter (store : List (String × Course)) :
    (build_graph store).edges.filter (fun e => e.type == "prerequisite") =
      prereqEdgesOf store := by
  have h1 : (prereqEdgesOf store).filter (fun e => e.type == "prerequisite") =
      prereqEdgesOf store :=
    List.filter_eq_self.mpr (fun e he => by
      rw [type_of_mem_prereqEdgesOf he]; decide)
  have h2 : (coreqEdgesOf store).filter (fun e => e.type == "prerequisite") = [] :=
    List.filter_eq_nil_iff.mpr (fun e he => by
      rw [type_of_mem_coreqEdgesOf he]; decide)
  show (prereqEdgesOf store ++ coreqEdgesOf store).filter _ = _
  rw [List.filter_append, h1, h2, List.append_nil]

theorem graph_coreq_filter (store : List (String × Course)) :
    (build_graph store).edges.filter (fun e => e.type == "corequisite") =
      coreqEdgesOf store := by
  have h1 : (coreqEdgesOf store).filter (fun e => e.type == "corequisite") =
      coreqEdgesOf store :=
    List.filter_eq_self.mpr (fun e he => by
      rw [type_of_mem_coreqEdgesOf he]; decide)
  have h2 : (prereqEdgesOf store).filter (fun e => e.type == "corequisite") = [] :=
    List.filter_eq_nil_iff.mpr (fun e he => by
      rw [type_of_mem_prereqEdgesOf he]; decide)
  show (prereqEdgesOf store ++ coreqEdgesOf store).filter _ = _
  rw [List.filter_append, h1, h2, List.nil_append]

theorem length_filter_map2 {α β : Type} (f : α → β) (p : β → Bool)
    (l : List α) :
    ((l.map f).filter p).length = (l.filter (fun a => p (f a))).length := by
  induction l with
  | nil => rfl
  | cons a l ih =>
    simp only [List.map_cons, List.filter_cons]
    by_cases h : p (f a) = true
    · simp [h, ih]
    · simp [h, ih]

theorem countE_prereq (store : List (String × Course))
    (hnd : (store.map Prod.fst).Nodup) {cid : String} {c : Course}
    (hmem : (cid, c) ∈ store) (hpn : c.prerequisites.Nodup) (q : String) :
    countE "prerequisite" q cid (build_graph store).edges =
      if q ∈ c.prerequisites ∧ hasKey store q = true then 1 else 0 := by
  have hzero : (coreqEdgesOf store).filter (fun e =>
      e.type == "prerequisite" && e.source == q && e.target == cid) = [] :=
    List.filter_eq_nil_iff.mpr (fun e he => by
      rw [show e.type = "corequisite" from type_of_mem_coreqEdgesOf he]
      simp)
  show ((prereqEdgesOf store ++ coreqEdgesOf store).filter _).length = _
  rw [List.filter_append, hzero, List.append_nil]
  show (((store.flatMap _).filter _)).length = _
  rw [length_filter_flatMap]
  refine Eq.trans (sum_map_single hnd hmem _ ?_) ?_
  · intro p hp hne
    apply List.length_eq_zero.mpr
    apply List.filter_eq_nil_iff.mpr
    intro e he
    rcases List.mem_map.mp he with ⟨q2, hq2, rfl⟩
    simp [beq_eq_false_iff_ne.mpr hne]
  · rw [length_filter_map2]
    show ((c.prerequisites.filter (fun q2 => hasKey store q2)).filter
        (fun q2 => (("prerequisite" : String) == "prerequisite" &&
          q2 == q && cid == cid))).length = _
    simp only [beq_self_eq_true, Bool.true_and, Bool.and_true]
    exact filter_hk_filter_eq_length _ q hpn

theorem countE_coreq (store : List (String × Course))
    (hnd : (store.map Prod.fst).Nodup) {cid : String} {c : Course}
    (hmem : (cid, c) ∈ store) (hcn : c.corequisites.Nodup) (q : String) :
    countE "corequisite" q cid (build_graph store).edges =
      if q ∈ c.corequisites ∧ hasKey store q = true then 1 else 0 := by
  have hzero : (prereqEdgesOf store).filter (fun e =>
      e.type == "corequisite" && e.source == q && e.target == cid) = [] :=
    List.filter_eq_nil_iff.mpr (fun e he => by
      rw [show e.type = "prerequisite" from type_of_mem_prereqEdgesOf he]
      simp)
  show ((prereqEdgesOf store ++ coreqEdgesOf store).filter _).length = _
  rw [List.filter_append, hzero, List.nil_append]
  show (((store.flatMap _).filter _)).length = _
  rw [length_filter_flatMap]
  refine Eq.trans (sum_map_single hnd hmem _ ?_) ?_
  · intro p hp hne
    apply List.length_eq_zero.mpr
    apply List.filter_eq_nil_iff.mpr
    intro e he
    rcases List.mem_map.mp he with ⟨q2, hq2, rfl⟩
    simp [beq_eq_false_iff_ne.mpr hne]
  · rw [length_filter_map2]
    show ((c.corequisites.filter (fun q2 => hasKey store q2)).filter
        (fun q2 => (("corequisite" : String) == "corequisite" &&
          q2 == q && cid == cid))).length = _
    simp only [beq_self_eq_true, Bool.true_and, Bool.and_true]
    exact filter_hk_filter_eq_length _ q hcn

theorem sum_lt_sum_of_exists {α : Type} (l : List α) (f g : α → Nat)
    (hle : ∀ p ∈ l, f p ≤ g p) (hex : ∃ p ∈ l, f p < g p) :
    (l.map f).sum < (l.map g).sum := by
  induction l with
  | nil => rcases hex with ⟨p, hp, _⟩; exact absurd hp (List.not_mem_nil p)
  | cons a l ih =>
    rcases hex with ⟨p, hp, hlt⟩
    rcases List.mem_cons.mp hp with rfl | hp2
    · have : (l.map f).sum ≤ (l.map g).sum :=
        List.sum_le_sum (fun p2 hp2 => hle p2 (List.mem_cons_of_mem _ hp2))
      simp only [List.map_cons, List.sum_cons]
      omega
    · have hhead : f a ≤ g a := hle a (List.mem_cons_self _ _)
      have htail : (l.map f).sum < (l.map g).sum :=
        ih (fun p2 h2 => hle p2 (List.mem_cons_of_mem _ h2)) ⟨p, hp2, hlt⟩
      simp only [List.map_cons, List.sum_cons]
      omega

/-! ## Lemmas about the in-degree tally of the Analyzer -/

theorem mem_dedupFirst {a : String} : ∀ {l : List String},
    a ∈ dedupFirst l ↔ a ∈ l := by
  intro l
  induction l using dedupFirst.induct with
  | case1 => simp [dedupFirst]
  | case2 x xs ih =>
    rw [dedupFirst]
    simp only [List.mem_cons, ih, List.mem_filter, bne_iff_ne]
    constructor
    · rintro (rfl | ⟨h, _⟩)
      · exact Or.inl rfl
      · exact Or.inr h
    · rintro (rfl | h)
      · exact Or.inl rfl
      · by_cases hx : a = x
        · exact Or.inl hx
        · exact Or.inr ⟨h, hx⟩

theorem nodup_dedupFirst : ∀ (l : List String), (dedupFirst l).Nodup := by
  intro l
  induction l using dedupFirst.induct with
  | case1 => simp [dedupFirst]
  | case2 x xs ih =>
    rw [dedupFirst]
    refine List.nodup_cons.mpr ⟨?_, ih⟩
    intro hx
    have := List.mem_filter.mp (mem_dedupFirst.mp hx)
    simp at this

theorem dedupFirst_append : ∀ (ts : List String) (t : String),
    dedupFirst (ts ++ [t]) =
      if t ∈ ts then dedupFirst ts else dedupFirst ts ++ [t] := by
  intro ts
  induction ts using dedupFirst.induct with
  | case1 =>
    intro t
    simp [dedupFirst]
  | case2 x xs ih =>
    intro t
    by_cases hxt : t = x
    · subst hxt
      rw [if_pos (List.mem_cons_self _ _)]
      show dedupFirst (t :: (xs ++ [t])) = _
      rw [dedupFirst, dedupFirst]
      congr 1
      rw [List.filter_append]
      simp
    · show dedupFirst (x :: (xs ++ [t])) = _
      rw [dedupFirst, List.filter_append]
      have hsingle : List.filter (fun y => y != x) [t] = [t] := by
        simp [bne_iff_ne, hxt]
      rw [hsingle, ih t]
      by_cases hmem : t ∈ xs.filter (fun y => y != x)
      · have htx : t ∈ x :: xs :=
          List.mem_cons_of_mem _ (List.mem_filter.mp hmem).1
        rw [if_pos hmem, if_pos htx, dedupFirst]
      · have htx : t ∉ x :: xs := by
          intro hc
          rcases List.mem_cons.mp hc with rfl | hc2
          · exact hxt rfl
          · exact hmem (List.mem_filter.mpr ⟨hc2, bne_iff_ne.mpr hxt⟩)
        rw [if_neg hmem, if_neg htx, dedupFirst]
        simp

theorem occCount_append (ts : List String) (t x : String) :
    occCount (ts ++ [t]) x = occCount ts x + if x = t then 1 else 0 := by
  unfold occCount
  rw [List.filter_append, List.length_append]
  congr 1
  by_cases hxt : t = x
  · subst hxt
    simp
  · rw [show List.filter (fun y => y == x) [t] = [] from by
      simp [beq_eq_false_iff_ne.mpr hxt]]
    rw [if_neg (fun h => hxt h.symm)]
    rfl

theorem occCount_eq_zero {ts : List String} {t : String} (h : t ∉ ts) :
    occCount ts t = 0 := by
  unfold occCount
  rw [List.filter_eq_nil_iff.mpr]
  · rfl
  · intro a ha
    simp only [beq_iff_eq]
    rintro rfl
    exact h ha

theorem bump_map_tally : ∀ {ks : List String} (g : String → Nat) (t : String),
    ks.Nodup →
    bumpCount t (ks.map (fun k => (k, g k))) =
      if t ∈ ks then ks.map (fun k => (k, g k + if k = t then 1 else 0))
      else ks.map (fun k => (k, g k)) ++ [(t, 1)]
  | [], g, t, _ => by simp [bumpCount]
  | k :: ks, g, t, hnd => by
    rcases List.nodup_cons.mp hnd with ⟨hk, hnd2⟩
    simp only [List.map_cons, bumpCount]
    by_cases hkt : k = t
    · subst hkt
      rw [if_pos rfl, if_pos (List.mem_cons_self _ _)]
      congr 1
      · simp
      · apply List.map_congr_left
        intro a ha
        rw [if_neg (fun hc : a = k => hk (hc ▸ ha))]
        simp
    · rw [if_neg hkt, bump_map_tally g t hnd2]
      by_cases hmem : t ∈ ks
      · rw [if_pos hmem, if_pos (List.mem_cons_of_mem _ hmem)]
        congr 1
        simp [hkt]
      · have : t ∉ k :: ks := by
          intro hc
          rcases List.mem_cons.mp hc with rfl | hc2
          · exact hkt rfl
          · exact hmem hc2
        rw [if_neg hmem, if_neg this]
        simp

theorem tally_append (ts : List String) (t : String) :
    bumpCount t (tallyOf ts) = tallyOf (ts ++ [t]) := by
  unfold tallyOf
  rw [bump_map_tally (occCount ts) t (nodup_dedupFirst ts)]
  rw [dedupFirst_append]
  by_cases hmem : t ∈ ts
  · rw [if_pos (mem_dedupFirst.mpr hmem), if_pos hmem]
    apply List.map_congr_left
    intro k hk
    rw [occCount_append]
  · rw [if_neg (fun hc => hmem (mem_dedupFirst.mp hc)), if_neg hmem,
      List.map_append]
    congr 1
    · apply List.map_congr_left
      intro k hk
      have hkt : k ≠ t := fun hc =>
        hmem (hc ▸ mem_dedupFirst.mp hk)
      rw [occCount_append, if_neg hkt]
      simp
    · simp [occCount_append, occCount_eq_zero hmem]

theorem countTargets_go (typ : String) : ∀ (es : List Edge) (ts : List String),
    es.foldl (fun acc e => if e.type == typ then bumpCount e.target acc
        else acc) (tallyOf ts)
      = tallyOf (ts ++ (es.filter (fun e => e.type == typ)).map
          (fun e => e.target)) := by
  intro es
  induction es with
  | nil => simp
  | cons e es ih =>
    intro ts
    rw [List.foldl_cons]
    by_cases he : (e.type == typ) = true
    · rw [if_pos he, tally_append, ih (ts ++ [e.target])]
      rw [List.filter_cons, if_pos he, List.map_cons, List.append_assoc]
      rfl
    · rw [if_neg he, ih ts, List.filter_cons, if_neg he]

/-- Canonical form of the in-degree tally: the distinct targets in
first-encounter order, each with its in-degree. -/
theorem countTargets_eq_tally (typ : String) (edges : List Edge) :
    countTargets typ edges =
      tallyOf ((edges.filter (fun e => e.type == typ)).map
        (fun e => e.target)) := by
  have h0 : tallyOf ([] : List String) = [] := by
    unfold tallyOf
    rw [dedupFirst]
    rfl
  have h := countTargets_go typ edges []
  rw [h0, List.nil_append] at h
  exact h

/-! ## Lemmas about the reported maximum and the stable descending sort -/

theorem le_foldl_max_init : ∀ (l : List Nat) (init : Nat),
    init ≤ l.foldl max init
  | [], _ => le_refl _
  | a :: l, init =>
    le_trans (le_max_left init a) (le_foldl_max_init l (max init a))

theorem le_foldl_max_mem : ∀ {l : List Nat} {x : Nat}, x ∈ l →
    ∀ (init : Nat), x ≤ l.foldl max init := by
  intro l
  induction l with
  | nil => intro x hx; exact absurd hx (List.not_mem_nil x)
  | cons a l ih =>
    intro x hx init
    rcases List.mem_cons.mp hx with rfl | hx2
    · exact le_trans (le_max_right init x) (le_foldl_max_init l (max init x))
    · exact ih hx2 (max init a)

theorem foldl_max_mem : ∀ (l : List Nat) (init : Nat),
    l.foldl max init = init ∨ l.foldl max init ∈ l := by
  intro l
  induction l with
  | nil => intro init; exact Or.inl rfl
  | cons a l ih =>
    intro init
    rcases ih (max init a) with h | h
    · rcases max_choice init a with hm | hm
      · exact Or.inl (by rw [List.foldl_cons, h, hm])
      · refine Or.inr ?_
        rw [List.foldl_cons, h, hm]
        exact List.mem_cons_self a l
    · exact Or.inr (List.mem_cons_of_mem a h)

theorem perm_insertByCount (x : String × Nat) :
    ∀ (l : List (String × Nat)), List.Perm (insertByCount x l) (x :: l)
  | [] => List.Perm.refl _
  | y :: ys => by
    rw [insertByCount]
    split_ifs with h
    · exact List.Perm.trans ((perm_insertByCount x ys).cons y)
        (List.Perm.swap x y ys)
    · exact List.Perm.refl _

theorem perm_sortByCountDesc : ∀ (l : List (String × Nat)),
    List.Perm (sortByCountDesc l) l
  | [] => List.Perm.refl _
  | x :: xs => by
    rw [sortByCountDesc]
    exact List.Perm.trans (perm_insertByCount x (sortByCountDesc xs))
      ((perm_sortByCountDesc xs).cons x)

theorem pairwise_insertByCount (x : String × Nat) :
    ∀ {l : List (String × Nat)},
    l.Pairwise (fun a b => b.2 ≤ a.2) →
    (insertByCount x l).Pairwise (fun a b => b.2 ≤ a.2) := by
  intro l
  induction l with
  | nil => intro _; simp [insertByCount]
  | cons y ys ih =>
    intro h
    rcases List.pairwise_cons.mp h with ⟨hy, hys⟩
    rw [insertByCount]
    split_ifs with hlt
    · refine List.pairwise_cons.mpr ⟨?_, ih hys⟩
      intro b hb
      rcases List.mem_cons.mp ((perm_insertByCount x ys).mem_iff.mp hb)
        with rfl | hb2
      · exact le_of_lt hlt
      · exact hy b hb2
    · refine List.pairwise_cons.mpr ⟨?_, h⟩
      intro b hb
      rcases List.mem_cons.mp hb with rfl | hb2
      · exact not_lt.mp hlt
      · exact le_trans (hy b hb2) (not_lt.mp hlt)

theorem filter_insertByCount (x : String × Nat) (c : Nat) :
    ∀ (l : List (String × Nat)),
    (insertByCount x l).filter (fun p => p.2 == c) =
      if x.2 = c then x :: l.filter (fun p => p.2 == c)
      else l.filter (fun p => p.2 == c) := by
  intro l
  induction l with
  | nil =>
    rw [insertByCount, List.filter_cons]
    by_cases hx : x.2 = c
    · rw [if_pos (by simp [hx]), if_pos hx]
    · rw [if_neg (by simp [hx]), if_neg hx]
  | cons y ys ih =>
    by_cases hlt : x.2 < y.2
    · rw [insertByCount, if_pos hlt, List.filter_cons]
      by_cases hx : x.2 = c
      · have hy : (y.2 == c) = false := beq_eq_false_iff_ne.mpr (by omega)
        rw [if_neg (by simp [hy]), ih, if_pos hx, if_pos hx,
          List.filter_cons, if_neg (by simp [hy])]
      · rw [ih, if_neg hx, if_neg hx, List.filter_cons]
    · rw [insertByCount, if_neg hlt, List.filter_cons]
      by_cases hx : x.2 = c
      · rw [if_pos (by simp [hx]), if_pos hx]
      · rw [if_neg (by simp [hx]), if_neg hx]

theorem filter_sortByCountDesc (c : Nat) : ∀ (l : List (String × Nat)),
    (sortByCountDesc l).filter (fun p => p.2 == c) =
      l.filter (fun p => p.2 == c) := by
  intro l
  induction l with
  | nil => rfl
  | cons x xs ih =>
    rw [sortByCountDesc, filter_insertByCount, ih, List.filter_cons]
    by_cases hx : x.2 = c
    · rw [if_pos hx, if_pos (by simp [hx])]
    · rw [if_neg hx, if_neg (by simp [hx])]

theorem pairwise_sortByCountDesc : ∀ (l : List (String × Nat)),
    (sortByCountDesc l).Pairwise (fun a b => b.2 ≤ a.2)
  | [] => by simp [sortByCountDesc]
  | x :: xs => by
    rw [sortByCountDesc]
    exact pairwise_insertByCount x (pairwise_sortByCountDesc xs)

theorem dedupFirst_eq_nil_iff : ∀ {ts : List String},
    dedupFirst ts = [] ↔ ts = []
  | [] => by rw [dedupFirst]
  | x :: xs => by rw [dedupFirst]; simp

theorem occ_eq_count (ts : List String) (t : String) :
    occCount ts t = ts.count t := by
  unfold occCount
  rw [List.count, List.countP_eq_length_filter]

theorem occCount_pos {ts : List String} {t : String} (h : t ∈ ts) :
    1 ≤ occCount ts t := by
  have hmem : t ∈ ts.filter (fun x => x == t) :=
    List.mem_filter.mpr ⟨h, by simp⟩
  have := List.length_pos.mpr (List.ne_nil_of_mem hmem)
  unfold occCount
  omega

theorem perm_dedupFirst_dedup (ts : List String) :
    List.Perm (dedupFirst ts) ts.dedup := by
  apply (List.perm_ext_iff_of_nodup (nodup_dedupFirst ts) (List.nodup_dedup ts)).mpr
  intro a
  rw [mem_dedupFirst, List.mem_dedup]

theorem sum_tally (ts : List String) :
    ((tallyOf ts).map (fun p => p.2)).sum = ts.length := by
  unfold tallyOf
  rw [List.map_map]
  have hcongr : (dedupFirst ts).map ((fun p : String × Nat => p.2) ∘
      (fun t => (t, occCount ts t))) = (dedupFirst ts).map (fun t => ts.count t) :=
    List.map_congr_left (fun t _ => occ_eq_count ts t)
  rw [hcongr]
  rw [((perm_dedupFirst_dedup ts).map (fun t => ts.count t)).sum_eq]
  exact List.sum_map_count_dedup_eq_length ts

theorem length_tally (ts : List String) :
    (tallyOf ts).length = (dedupFirst ts).length := by
  unfold tallyOf
  rw [List.length_map]

theorem tally_values (ts : List String) :
    (tallyOf ts).map (fun p => p.2) = (dedupFirst ts).map (fun t => occCount ts t) := by
  unfold tallyOf
  rw [List.map_map]
  rfl

theorem tallyOf_eq_nil_iff {ts : List String} : tallyOf ts = [] ↔ ts = [] := by
  unfold tallyOf
  rw [List.map_eq_nil_iff, dedupFirst_eq_nil_iff]

theorem not_contains_iff {l : List String} {a : String} :
    (!(l.contains a)) = true ↔ a ∉ l := by
  simp

/-! ## Claim theorems -/

/-- C1, counterexample.  The claim states that a graph document missing the
required nodes or edges keys is a fatal input-contract violation and is not
silently given a default shape such as empty lists.  In the code
(`stats.py` lines 21-23) the keys are read with `data.get(..., [])`: the
analyzer treats the fully keyless document exactly as a document carrying
explicit empty lists, and produces a statistics value rather than an
error. -/
theorem C1_missing_keys_counterexample :
    analyze_graph { nodes := none, edges := none, metadata := none } =
      analyze_graph { nodes := some [], edges := some [], metadata := none } :=
  rfl

/-- C1, amended.  When the Analyzer is handed a graph document missing the
nodes or edges keys, it raises no error: it silently substitutes empty
lists for the missing keys and returns all-empty, all-zero statistics. -/
theorem C1_missing_keys_defaulted :
    analyze_graph { nodes := none, edges := none, metadata := none } =
      { total_courses := 0, total_edges := 0, meta_prereqs := 0,
        meta_coreqs := 0, dept_counts := [], level_counts := [],
        prereq_summary := none, coreq_summary := none,
        entry_points := [], end_points := [] } :=
  rfl

/-- C2, counterexample.  The claim includes `recognize("6.042J intro") ==
"6.042J"`, but the compiled pattern `(\d{2}\.\d{2,3}[A-Z]?)` requires
exactly two digits before the dot, and `6.042J` has only one: the
recognizer returns nothing on that text. -/
theorem C2_recognizer_counterexample :
    extract_course_id "6.042J intro" ≠ some "6.042J" := by
  decide

/-- C2, amended.  The Identifier Recognizer returns the first substring of
the canonical shape (exactly two digits, a dot, two-to-three digits, an
optional single trailing letter), matched case-insensitively and returned
upper-cased; `recognize("18.01") = "18.01"`, while `"6.042J intro"` and
`"no ids here"` yield nothing (not an error), the former because `6.042J`
has a single digit before the dot.  Any returned identifier is the
upper-casing of the earliest shape-conforming substring of the text. -/
theorem C2_recognizer :
    extract_course_id "18.01" = some "18.01"
    ∧ extract_course_id "6.042J intro" = none
    ∧ extract_course_id "no ids here" = none
    ∧ extract_course_id "see 18.06b and 18.03" = some "18.06B"
    ∧ ∀ t s, extract_course_id t = some s → recognizerSound t s := by
  refine ⟨by decide, by decide, by decide, by decide, ?_⟩
  intro t s h
  exact extract_course_id_sound h

/-- C2, witness for the general conjunct at a concrete input. -/
theorem C2_recognizer_witness :
    extract_course_id "see 18.06b and 18.03" = some "18.06B"
    ∧ recognizerSound "see 18.06b and 18.03" "18.06B" :=
  ⟨C2_recognizer.2.2.2.1, C2_recognizer.2.2.2.2 _ _ (by decide)⟩

/-- C3, failing input.  The claim states that no record's prerequisites
contain its own identifier, whichever way the identifier was found.  When
the page title carries no identifier and it is recovered from the URL
(lines 316-334), the self-reference filter of lines 306-309 has already
been skipped: mining candidates `["18.01"]` for the page at the 18-01 URL
with title `Single Variable Calculus` produces a record whose identifier
`18.01` appears in its own prerequisites, contradicting the claim and the
comment on line 306. -/
theorem C3_self_reference_eval :
    (process_course_page (some "Single Variable Calculus")
        "https://ocw.mit.edu/courses/18-01-single-variable-calculus-fall-2006/"
        ["18.01"] [] none).map (fun c => (c.course_id, c.prerequisites)) =
      some ("18.01", ["18.01"]) := by
  decide

/-- C4.  The Relation Merger returns a duplicate-free, lexicographically
sorted list with the course's own identifier removed; it depends only on
the membership of the candidate multiset (order- and
multiplicity-independent) and is idempotent. -/
theorem C4_merger (S : List String) (self_id : String) :
    mergerClaim S self_id := by
  refine ⟨nodup_of_pairwise_sLt (pairwise_merge S self_id),
    pairwise_merge S self_id, ?_, ?_, merge_idem S self_id⟩
  · intro hmem
    exact (mem_merge.mp hmem).2 rfl
  · intro S2 hiff
    show (sortedDedup S).filter _ = (sortedDedup S2).filter _
    rw [sortedDedup_mem_congr hiff]

/-- C4, witness on a concrete multiset containing the course's own
identifier and a duplicate. -/
theorem C4_merger_witness : mergerClaim ["6.042", "6.006", "18.01", "6.042"] "6.006" :=
  C4_merger _ _

/-- C5.  For a store with distinct keys, the Graph Assembler emits exactly
one edge per listed relation identifier that is also a store key, no edge
for identifiers absent from the store, and every emitted edge has both
endpoints present as store keys. -/
theorem C5_assembler (store : List (String × Course))
    (hnd : (store.map Prod.fst).Nodup) : assemblerClaim store := by
  refine ⟨?_, ?_, ?_⟩
  · intro e he
    rcases List.mem_append.mp he with h | h
    · exact endpoints_of_mem_prereqEdgesOf h
    · exact endpoints_of_mem_coreqEdgesOf h
  · intro cid c hmem hn q
    exact countE_prereq store hnd hmem hn q
  · intro cid c hmem hn q
    exact countE_coreq store hnd hmem hn q

/-- C5, witness on a concrete two-record store. -/
theorem C5_assembler_witness : assemblerClaim storePair :=
  C5_assembler storePair (by decide)

/-- C8.  Upserting a record whose identifier is already a key replaces the
stored record wholesale: afterwards the store yields exactly the last
upsert's input for that key, and every other key is untouched. -/
theorem C8_upsert_replace (store : List (String × Course)) (c : Course) :
    List.lookup c.course_id (upsert store c) = some c
    ∧ ∀ k2, k2 ≠ c.course_id →
        List.lookup k2 (upsert store c) = List.lookup k2 store :=
  ⟨lookup_upsert store c, fun _ h => lookup_upsert_ne store c h⟩

/-- C8, witness: re-upserting identifier 6.006 with entirely different
field values stores exactly the second record, and an unrelated key is
unaffected. -/
theorem C8_upsert_replace_witness :
    List.lookup "6.006" (upsert (upsert [] courseV1) courseV2) = some courseV2
    ∧ List.lookup "18.01" (upsert storePair courseV2) =
        List.lookup "18.01" storePair :=
  ⟨(C8_upsert_replace (upsert [] courseV1) courseV2).1,
   (C8_upsert_replace storePair courseV2).2 "18.01" (by decide)⟩

/-- C9, failing input.  Mining the raw text `Prerequisites: 6.042 or
18.01. Corequisites: 8.01` with the sentence-window scan yields no
prerequisites at all, not the claimed set: the capture `[^\.\n]+` stops at
the first period, which is the decimal point of `6.042`, so the window is
just `6`; indeed the scan can never produce any identifier on any text.
Moreover even the recognizer over the whole text finds only `18.01`, since
`6.042` and `8.01` lack two digits before the dot, and the code has no
raw-text corequisite scan at all. -/
theorem C9_sentence_window_eval :
    mine_sentence_windows "Prerequisites: 6.042 or 18.01. Corequisites: 8.01" = []
    ∧ parse_prerequisites "Prerequisites: 6.042 or 18.01. Corequisites: 8.01" =
        ["18.01"]
    ∧ (∀ text, mine_sentence_windows text = []) :=
  ⟨mine_sentence_windows_nil _, by decide, mine_sentence_windows_nil⟩

/-- C10.  The metadata counters are the sums of every record's relation
list lengths, counting references absent from the store; each counter
bounds the number of emitted edges of its type from above, strictly when
some listed reference is not a store key. -/
theorem C10_metadata (store : List (String × Course)) : metadataClaim store := by
  refine ⟨rfl, rfl, ?_, ?_, ?_, ?_⟩
  · rw [graph_prereq_filter]
    show (store.flatMap _).length ≤ _
    rw [length_flatMap]
    simp only [List.length_map]
    exact List.sum_le_sum (fun p _ => List.length_filter_le _ _)
  · rw [graph_coreq_filter]
    show (store.flatMap _).length ≤ _
    rw [length_flatMap]
    simp only [List.length_map]
    exact List.sum_le_sum (fun p _ => List.length_filter_le _ _)
  · rintro ⟨p, hp, q, hq, hkq⟩
    rw [graph_prereq_filter]
    show (store.flatMap _).length < _
    rw [length_flatMap]
    simp only [List.length_map]
    apply sum_lt_sum_of_exists
    · exact fun p2 _ => List.length_filter_le _ _
    · exact ⟨p, hp, List.length_filter_lt_length_iff_exists.mpr
        ⟨q, hq, by simp [hkq]⟩⟩
  · rintro ⟨p, hp, q, hq, hkq⟩
    rw [graph_coreq_filter]
    show (store.flatMap _).length < _
    rw [length_flatMap]
    simp only [List.length_map]
    apply sum_lt_sum_of_exists
    · exact fun p2 _ => List.length_filter_le _ _
    · exact ⟨p, hp, List.length_filter_lt_length_iff_exists.mpr
        ⟨q, hq, by simp [hkq]⟩⟩

/-- C10, witness: in the two-record store the dangling reference 99.99
makes the counter (2) strictly exceed the emitted prerequisite edges (1). -/
theorem C10_metadata_witness :
    ((build_graph storePair).edges.filter
      (fun e => e.type == "prerequisite")).length <
      (build_graph storePair).total_prerequisites :=
  (C10_metadata storePair).2.2.2.2.1
    ⟨("18.02", course18_02), by decide, "99.99", by decide, by decide⟩

/-- C6.  The entry-point set is exactly the node identifiers never
appearing as any edge's target (of either relation kind), in node-list
order, and the end-point set exactly those never appearing as any edge's
source; hence the entry points are disjoint from the edge targets and the
end points disjoint from the edge sources. -/
theorem C6_connectivity (doc : GraphDoc) : connectivityClaim doc := by
  refine ⟨List.filter_sublist _, ?_, ?_, List.filter_sublist _, ?_, ?_⟩
  · intro i
    constructor
    · intro hi
      have hi2 := List.mem_filter.mp hi
      refine ⟨hi2.1, fun e he hti => ?_⟩
      exact not_contains_iff.mp hi2.2 (List.mem_map.mpr ⟨e, he, hti⟩)
    · rintro ⟨h1, h2⟩
      apply List.mem_filter.mpr
      refine ⟨h1, not_contains_iff.mpr ?_⟩
      intro hmem
      rcases List.mem_map.mp hmem with ⟨e, he, hte⟩
      exact h2 e he hte
  · intro i hi e he hti
    have hi2 := List.mem_filter.mp hi
    exact not_contains_iff.mp hi2.2 (List.mem_map.mpr ⟨e, he, hti⟩)
  · intro i
    constructor
    · intro hi
      have hi2 := List.mem_filter.mp hi
      refine ⟨hi2.1, fun e he hsi => ?_⟩
      exact not_contains_iff.mp hi2.2 (List.mem_map.mpr ⟨e, he, hsi⟩)
    · rintro ⟨h1, h2⟩
      apply List.mem_filter.mpr
      refine ⟨h1, not_contains_iff.mpr ?_⟩
      intro hmem
      rcases List.mem_map.mp hmem with ⟨e, he, hse⟩
      exact h2 e he hse
  · intro i hi e he hsi
    have hi2 := List.mem_filter.mp hi
    exact not_contains_iff.mp hi2.2 (List.mem_map.mpr ⟨e, he, hsi⟩)

/-- C6, witness on the spec section 8 scenario graph. -/
theorem C6_connectivity_witness : connectivityClaim docScenario :=
  C6_connectivity docScenario

/-- C7, counterexample.  The claim asserts the full in-degree suite for
each relation kind, in particular that the mean corequisite in-degree over
courses with at least one incoming corequisite edge is reported.  On a
graph with three corequisite edges onto two targets that mean is 3/2, yet
the corequisite analysis (`stats.py` lines 104-113) reports only the pair
(courses with at least one, total edges) = (2, 3); neither reported figure
is the mean, and no maximum or top-five is computed for corequisites. -/
theorem C7_indegree_counterexample :
    (analyze_graph docCoreqMix).coreq_summary = some (2, 3)
    ∧ (3 : ℚ) / 2 ≠ (2 : ℚ) ∧ (3 : ℚ) / 2 ≠ (3 : ℚ) :=
  ⟨rfl, by norm_num, by norm_num⟩

/-- C7, amended.  For the prerequisite kind the analyzer reports the
number of courses with at least one incoming edge, the number with zero,
the maximum in-degree, the mean in-degree over courses with at least one
(not over all courses), and the top five by in-degree via a stable
descending sort of the tally whose entries are the distinct targets in
edge-encounter order; for the corequisite kind only the number of courses
with at least one incoming edge and the total number of such edges are
reported. -/
theorem C7_indegree (doc : GraphDoc)
    (H1 : (nodeIds doc).Nodup)
    (H2 : ∀ e ∈ docEdges doc, e.type = "prerequisite" →
        e.target ∈ nodeIds doc) :
    indegreeClaim doc := by
  have htally : countTargets "prerequisite" (docEdges doc) =
      tallyOf (prereqTargets (docEdges doc)) :=
    countTargets_eq_tally "prerequisite" (docEdges doc)
  have hctally : countTargets "corequisite" (docEdges doc) =
      tallyOf (coreqTargets (docEdges doc)) :=
    countTargets_eq_tally "corequisite" (docEdges doc)
  have hsub : ∀ x ∈ prereqTargets (docEdges doc), x ∈ nodeIds doc := by
    intro x hx
    rcases List.mem_map.mp hx with ⟨e, he, rfl⟩
    have hef := List.mem_filter.mp he
    exact H2 e hef.1 (by simpa using hef.2)
  have hlen : ((nodeIds doc).filter
      (fun i => (prereqTargets (docEdges doc)).contains i)).length =
      (dedupFirst (prereqTargets (docEdges doc))).length := by
    refine ((List.perm_ext_iff_of_nodup (H1.filter _)
        (nodup_dedupFirst _)).mpr ?_).length_eq
    intro a
    rw [List.mem_filter, mem_dedupFirst]
    constructor
    · rintro ⟨h1, h2⟩
      simpa using h2
    · intro ha
      exact ⟨hsub a ha, by simpa using ha⟩
  have hempty : (countTargets "prerequisite" (docEdges doc)).isEmpty = true ↔
      prereqTargets (docEdges doc) = [] := by
    rw [htally, List.isEmpty_iff, tallyOf_eq_nil_iff]
  have hcempty : (countTargets "corequisite" (docEdges doc)).isEmpty = true ↔
      coreqTargets (docEdges doc) = [] := by
    rw [hctally, List.isEmpty_iff, tallyOf_eq_nil_iff]
  refine ⟨htally, ?_, ?_, ?_, ?_⟩
  · by_cases hc : (countTargets "prerequisite" (docEdges doc)).isEmpty = true
    · show (if (countTargets "prerequisite" (docEdges doc)).isEmpty then _
        else _) = none ↔ _
      rw [if_pos hc]
      simp [hempty.mp hc]
    · show (if (countTargets "prerequisite" (docEdges doc)).isEmpty then _
        else _) = none ↔ _
      rw [if_neg (by simpa using hc)]
      constructor
      · intro h
        exact absurd h (by simp)
      · intro h
        exact absurd (hempty.mpr h) hc
  · intro sm hsm
    by_cases hc : (countTargets "prerequisite" (docEdges doc)).isEmpty = true
    · rw [show (analyze_graph doc).prereq_summary =
          (if (countTargets "prerequisite" (docEdges doc)).isEmpty then none
            else _) from rfl, if_pos hc] at hsm
      exact absurd hsm (by simp)
    · rw [show (analyze_graph doc).prereq_summary =
          (if (countTargets "prerequisite" (docEdges doc)).isEmpty then none
            else some
              { with_courses := (countTargets "prerequisite" (docEdges doc)).length
                without_courses := (((doc.nodes.getD []).length : Int)) -
                  ((countTargets "prerequisite" (docEdges doc)).length : Int)
                max_in := listMax ((countTargets "prerequisite"
                  (docEdges doc)).map (fun p => p.2))
                avg_in := (((((countTargets "prerequisite" (docEdges doc)).map
                    (fun p => p.2)).sum : ℕ)) : ℚ) /
                  ((((countTargets "prerequisite" (docEdges doc)).length : ℕ)) : ℚ)
                top5 := (sortByCountDesc (countTargets "prerequisite"
                  (docEdges doc))).take 5 }) from rfl,
        if_neg (by simpa using hc)] at hsm
      obtain rfl := Option.some_injective _ hsm.symm
      refine ⟨?_, ?_, ?_, ?_, ?_, ?_⟩
      · show (countTargets "prerequisite" (docEdges doc)).length = _
        rw [htally, length_tally, hlen]
      · show (((doc.nodes.getD []).length : Int)) -
            ((countTargets "prerequisite" (docEdges doc)).length : Int) = _
        rw [htally, length_tally, hlen]
        congr 1
        show ((doc.nodes.getD []).length : Int) = ((nodeIds doc).length : Int)
        unfold nodeIds
        rw [List.length_map]
      · intro t2
        show occCount (prereqTargets (docEdges doc)) t2 ≤
          listMax ((countTargets "prerequisite" (docEdges doc)).map
            (fun p => p.2))
        rw [htally, tally_values]
        by_cases hmem : t2 ∈ prereqTargets (docEdges doc)
        · exact le_foldl_max_mem
            (List.mem_map.mpr ⟨t2, mem_dedupFirst.mpr hmem, rfl⟩) 0
        · rw [occCount_eq_zero hmem]
          exact Nat.zero_le _
      · show ∃ t2 ∈ prereqTargets (docEdges doc),
          occCount (prereqTargets (docEdges doc)) t2 =
            listMax ((countTargets "prerequisite" (docEdges doc)).map
              (fun p => p.2))
        rw [htally, tally_values]
        rcases foldl_max_mem ((dedupFirst (prereqTargets (docEdges doc))).map
            (fun t => occCount (prereqTargets (docEdges doc)) t)) 0 with h | h
        · exfalso
          have hne : prereqTargets (docEdges doc) ≠ [] :=
            fun hnil => hc (hempty.mpr hnil)
          rcases List.exists_mem_of_ne_nil _ hne with ⟨t0, ht0⟩
          have h1 := occCount_pos ht0
          have h2 : occCount (prereqTargets (docEdges doc)) t0 ≤
              ((dedupFirst (prereqTargets (docEdges doc))).map
                (fun t => occCount (prereqTargets (docEdges doc)) t)).foldl
                  max 0 :=
            le_foldl_max_mem
              (List.mem_map.mpr ⟨t0, mem_dedupFirst.mpr ht0, rfl⟩) 0
          rw [h] at h2
          omega
        · rcases List.mem_map.mp h with ⟨t2, ht2, heq⟩
          exact ⟨t2, mem_dedupFirst.mp ht2, heq⟩
      · show (((((countTargets "prerequisite" (docEdges doc)).map
            (fun p => p.2)).sum : ℕ)) : ℚ) /
            ((((countTargets "prerequisite" (docEdges doc)).length : ℕ)) : ℚ) = _
        rw [htally, sum_tally, length_tally, ← hlen]
      · exact ⟨sortByCountDesc (countTargets "prerequisite" (docEdges doc)),
          perm_sortByCountDesc _, pairwise_sortByCountDesc _,
          fun c2 => filter_sortByCountDesc c2 _, rfl⟩
  · by_cases hc : (countTargets "corequisite" (docEdges doc)).isEmpty = true
    · show (if (countTargets "corequisite" (docEdges doc)).isEmpty then _
        else _) = none ↔ _
      rw [if_pos hc]
      simp [hcempty.mp hc]
    · show (if (countTargets "corequisite" (docEdges doc)).isEmpty then _
        else _) = none ↔ _
      rw [if_neg (by simpa using hc)]
      constructor
      · intro h
        exact absurd h (by simp)
      · intro h
        exact absurd (hcempty.mpr h) hc
  · intro pr hpr
    by_cases hc : (countTargets "corequisite" (docEdges doc)).isEmpty = true
    · rw [show (analyze_graph doc).coreq_summary =
          (if (countTargets "corequisite" (docEdges doc)).isEmpty then none
            else _) from rfl, if_pos hc] at hpr
      exact absurd hpr (by simp)
    · rw [show (analyze_graph doc).coreq_summary =
          (if (countTargets "corequisite" (docEdges doc)).isEmpty then none
            else some ((countTargets "corequisite" (docEdges doc)).length,
              ((countTargets "corequisite" (docEdges doc)).map
                (fun p => p.2)).sum)) from rfl,
        if_neg (by simpa using hc)] at hpr
      obtain rfl := Option.some_injective _ hpr.symm
      constructor
      · show (countTargets "corequisite" (docEdges doc)).length = _
        rw [hctally, length_tally]
      · show ((countTargets "corequisite" (docEdges doc)).map
          (fun p => p.2)).sum = _
        rw [hctally, sum_tally]

/-- C7, witness on a concrete graph with prerequisite in-degrees 2 and 1. -/
theorem C7_indegree_witness : indegreeClaim docPrereqMix :=
  C7_indegree docPrereqMix (by decide) (by decide)

end Arbor














